import Mathlib

/-!
# Cube3D: a shallow embedding of `src/main.cpp`

The program renders a wireframe cube: 3D vector algebra, rotation of the cube
about an axis through two opposite face centroids, pinhole projection and
Wu's antialiased line rasteriser.

Modelling conventions.

* A finite C++ `double` is idealised as an element of a linearly ordered field
  `K` with a floor function (exact arithmetic, no rounding, no overflow).  All
  definitions that only use `+ - * /`, comparisons and `floor` are generic in
  `K` and computable; they can be run at `K = ℚ`.
* The functions that call `cos`, `sin` or `hypot` (`getMagnitude`,
  `getUnitVector`, `rotate`, `rotateAbout`) are instantiated at `K = ℝ`, with
  `M_PI` read as `Real.pi`.
* `Vector3 point[8]` is a function `Fin 8 → Vector3 K`.
* A C++ `int` is an element of `ℤ`; the implicit `double → int` conversion at a
  call of `plot` truncates toward zero (`truncToInt`).
* Where infinities and NaN matter (the guard of `wuLine`, the normalisation of a zero
  vector in `rotateAbout`), a `double` is an element of `Double K`: a finite value of
  `K`, `+∞`, `-∞` or NaN, with the IEEE rules for these.  `Cube3D.rotateAboutD` is
  `rotateAbout` read over `Double ℝ`; it agrees with `Cube3D.rotateAbout` on finite,
  non-degenerate inputs (`Cube3D.rotateAboutD_toDouble`).
* The event loop of `main` is the function `keyDown` on the state `AppState`.
-/

namespace Cube3DApp

/-! ## Vector2 / Vector3 (main.cpp 110-202) -/

/-- The struct `Vector2` (main.cpp 110-128). -/
structure Vector2 (K : Type) where
  x : K
  y : K
deriving DecidableEq, Repr

/-- The struct `Vector3` (main.cpp 130-142). -/
structure Vector3 (K : Type) where
  x : K
  y : K
  z : K
deriving DecidableEq, Repr

namespace Vector3

variable {K : Type}

/-- The default constructor `Vector3()`: all three coordinates are `0.0`. -/
def zero [Zero K] : Vector3 K := ⟨0, 0, 0⟩

/-- Function `operator+` (main.cpp 160-163). -/
def add [Add K] (lhs rhs : Vector3 K) : Vector3 K :=
  ⟨lhs.x + rhs.x, lhs.y + rhs.y, lhs.z + rhs.z⟩

/-- Function `operator-` (main.cpp 165-168). -/
def sub [Sub K] (lhs rhs : Vector3 K) : Vector3 K :=
  ⟨lhs.x - rhs.x, lhs.y - rhs.y, lhs.z - rhs.z⟩

/-- Function `operator*(Vector3, double)` (main.cpp 170-173). -/
def scale [Mul K] (lhs : Vector3 K) (rhs : K) : Vector3 K :=
  ⟨lhs.x * rhs, lhs.y * rhs, lhs.z * rhs⟩

/-- Function `operator*(Vector3, Vector3)`, the cross product (main.cpp 176-181). -/
def cross [Mul K] [Sub K] (lhs rhs : Vector3 K) : Vector3 K :=
  ⟨(lhs.y * rhs.z) - (lhs.z * rhs.y),
   (lhs.z * rhs.x) - (lhs.x * rhs.z),
   (lhs.x * rhs.y) - (lhs.y * rhs.x)⟩

/-- Function `dot` (main.cpp 183-186). -/
def dot [Mul K] [Add K] (lhs rhs : Vector3 K) : K :=
  (lhs.x * rhs.x) + (lhs.y * rhs.y) + (lhs.z * rhs.z)

/-- Function `operator/(Vector3, double)` (main.cpp 188-191). -/
def div [Div K] (lhs : Vector3 K) (rhs : K) : Vector3 K :=
  ⟨lhs.x / rhs, lhs.y / rhs, lhs.z / rhs⟩

instance [Zero K] : Zero (Vector3 K) := ⟨zero⟩
instance [Add K] : Add (Vector3 K) := ⟨add⟩
instance [Sub K] : Sub (Vector3 K) := ⟨sub⟩
instance [Div K] : HDiv (Vector3 K) K (Vector3 K) := ⟨div⟩

/-- The C library function `hypot(a, b) = sqrt(a*a + b*b)`. -/
noncomputable def hypot (a b : ℝ) : ℝ := Real.sqrt (a * a + b * b)

/-- Function `getMagnitude` (main.cpp 144-147). -/
noncomputable def getMagnitude (v : Vector3 ℝ) : ℝ := hypot (hypot v.x v.y) v.z

/-- Function `getUnitVector` (main.cpp 149-152). -/
noncomputable def getUnitVector (v : Vector3 ℝ) : Vector3 ℝ := v / v.getMagnitude

end Vector3

/-! ## Cube2D / Cube3D (main.cpp 204-337) -/

/-- The struct `Cube2D` (main.cpp 204-234): eight points of the plane. -/
structure Cube2D (K : Type) where
  point : Fin 8 → Vector2 K

/-- The struct `Cube3D` (main.cpp 236-267): eight points of space. -/
structure Cube3D (K : Type) where
  point : Fin 8 → Vector3 K

/-- The axis constants `X_AXIS`, `Y_AXIS`, `Z_AXIS` (main.cpp 8-10). -/
inductive Axis where
  | X_AXIS
  | Y_AXIS
  | Z_AXIS
deriving DecidableEq, Repr

namespace Cube3D

variable {K : Type}

/-- The constructor `Cube3D(data)` with a non-null array (main.cpp 260-266). -/
def ofPoints (p0 p1 p2 p3 p4 p5 p6 p7 : Vector3 K) : Cube3D K :=
  ⟨fun i => match i with
    | 0 => p0 | 1 => p1 | 2 => p2 | 3 => p3
    | 4 => p4 | 5 => p5 | 6 => p6 | 7 => p7⟩

/-- The constructor `Cube3D()` with `data == nullptr`: the unit cube (main.cpp 247-258). -/
def unitCube [Zero K] [One K] : Cube3D K :=
  ofPoints ⟨0, 0, 0⟩ ⟨1, 0, 0⟩ ⟨1, 1, 0⟩ ⟨0, 1, 0⟩ ⟨0, 0, 1⟩ ⟨1, 0, 1⟩ ⟨1, 1, 1⟩ ⟨0, 1, 1⟩

/-- Function `getCenter` (main.cpp 269-279): `center` starts at the zero vector, every
point is added to it in index order, and the sum is divided by `8.0`. -/
def getCenter [Field K] (c : Cube3D K) : Vector3 K :=
  ((List.ofFn c.point).foldl (fun center p => center + p) Vector3.zero) / (8 : K)

/-- Function `translate` (main.cpp 281-287): `p += distance` for every point. -/
def translate [Add K] (c : Cube3D K) (distance : Vector3 K) : Cube3D K :=
  ⟨fun i => c.point i + distance⟩

/-- Function `rotate` (main.cpp 290-306). -/
noncomputable def rotate (p q d : Vector3 ℝ) (theta : ℝ) : Vector3 ℝ :=
  let x := p.x; let y := p.y; let z := p.z
  let a := q.x; let b := q.y; let c := q.z
  let u := d.x; let v := d.y; let w := d.z
  let t1 := u * x - v * y - w * z
  let t2 := 1 - Real.cos theta
  ⟨(a * (v * v + w * w) - u * (b * v + c * w - t1)) * t2 + x * Real.cos theta
      + (-c * v + b * w - w * y + v * z) * Real.sin theta,
   (b * (u * u + w * w) - v * (a * u + c * w - t1)) * t2 + y * Real.cos theta
      + (c * u - a * w + w * x - u * z) * Real.sin theta,
   (c * (u * u + v * v) - w * (a * u + b * v - t1)) * t2 + z * Real.cos theta
      + (-b * u + a * v - v * x + u * y) * Real.sin theta⟩

/-- The first pivot point `p1` chosen by the `switch` of `rotateAbout` (main.cpp 312-328). -/
def pivot1 [Field K] (c : Cube3D K) : Axis → Vector3 K
  | .X_AXIS => (c.point 0 + c.point 3 + c.point 4 + c.point 7) / (4 : K)
  | .Y_AXIS => (c.point 0 + c.point 1 + c.point 4 + c.point 5) / (4 : K)
  | .Z_AXIS => (c.point 0 + c.point 1 + c.point 2 + c.point 3) / (4 : K)

/-- The second pivot point `p2` chosen by the `switch` of `rotateAbout` (main.cpp 312-328). -/
def pivot2 [Field K] (c : Cube3D K) : Axis → Vector3 K
  | .X_AXIS => (c.point 1 + c.point 2 + c.point 5 + c.point 6) / (4 : K)
  | .Y_AXIS => (c.point 2 + c.point 3 + c.point 6 + c.point 7) / (4 : K)
  | .Z_AXIS => (c.point 4 + c.point 5 + c.point 6 + c.point 7) / (4 : K)

/-- Function `rotateAbout` (main.cpp 308-336).  `p1`, `p2` and `d` are computed once,
from the points before the loop; the loop replaces every point. -/
noncomputable def rotateAbout (c : Cube3D ℝ) (axis : Axis) (theta : ℝ) : Cube3D ℝ :=
  let p1 := c.pivot1 axis
  let p2 := c.pivot2 axis
  let d := (p2 - p1).getUnitVector
  ⟨fun i => rotate (c.point i) p1 d (theta / 180 * Real.pi)⟩

end Cube3D

/-! ## Geometric notions used to state the properties -/

/-- The Euclidean norm of a vector. -/
noncomputable def Vector3.norm (v : Vector3 ℝ) : ℝ := Real.sqrt (v.x ^ 2 + v.y ^ 2 + v.z ^ 2)

/-- The Euclidean distance between two points. -/
noncomputable def distance (a b : Vector3 ℝ) : ℝ := (a - b).norm

/-- The perpendicular distance from the point `p` to the line through `q` with
direction `d`: `|(p - q) × d| / |d|`. -/
noncomputable def distToLine (p q d : Vector3 ℝ) : ℝ := ((p - q).cross d).norm / d.norm

/-- The image of `p` under the rotation by `theta` about the line through `q` with unit
direction `d` (Rodrigues' formula):
`q + cos θ (p - q) + sin θ (d × (p - q)) + (1 - cos θ) (d · (p - q)) d`. -/
noncomputable def rodrigues (p q d : Vector3 ℝ) (theta : ℝ) : Vector3 ℝ :=
  q + (p - q).scale (Real.cos theta) + (d.cross (p - q)).scale (Real.sin theta)
    + d.scale ((1 - Real.cos theta) * d.dot (p - q))

/-- The arithmetic mean of four points. -/
def mean4 {K : Type} [Field K] (a b c d : Vector3 K) : Vector3 K :=
  ⟨(a.x + b.x + c.x + d.x) / 4, (a.y + b.y + c.y + d.y) / 4, (a.z + b.z + c.z + d.z) / 4⟩

/-- The first face centroid named by the axis selection rule: the mean of vertices
`{0, 3, 4, 7}` for X, `{0, 1, 4, 5}` for Y, `{0, 1, 2, 3}` for Z. -/
def faceCentroid1 {K : Type} [Field K] (c : Cube3D K) : Axis → Vector3 K
  | .X_AXIS => mean4 (c.point 0) (c.point 3) (c.point 4) (c.point 7)
  | .Y_AXIS => mean4 (c.point 0) (c.point 1) (c.point 4) (c.point 5)
  | .Z_AXIS => mean4 (c.point 0) (c.point 1) (c.point 2) (c.point 3)

/-- The second face centroid named by the axis selection rule: the mean of vertices
`{1, 2, 5, 6}` for X, `{2, 3, 6, 7}` for Y, `{4, 5, 6, 7}` for Z. -/
def faceCentroid2 {K : Type} [Field K] (c : Cube3D K) : Axis → Vector3 K
  | .X_AXIS => mean4 (c.point 1) (c.point 2) (c.point 5) (c.point 6)
  | .Y_AXIS => mean4 (c.point 2) (c.point 3) (c.point 6) (c.point 7)
  | .Z_AXIS => mean4 (c.point 4) (c.point 5) (c.point 6) (c.point 7)

/-- The arithmetic mean of the eight vertices of a cube. -/
def mean8 {K : Type} [Field K] (c : Cube3D K) : Vector3 K :=
  ⟨((c.point 0).x + (c.point 1).x + (c.point 2).x + (c.point 3).x
      + (c.point 4).x + (c.point 5).x + (c.point 6).x + (c.point 7).x) / 8,
   ((c.point 0).y + (c.point 1).y + (c.point 2).y + (c.point 3).y
      + (c.point 4).y + (c.point 5).y + (c.point 6).y + (c.point 7).y) / 8,
   ((c.point 0).z + (c.point 1).z + (c.point 2).z + (c.point 3).z
      + (c.point 4).z + (c.point 5).z + (c.point 6).z + (c.point 7).z) / 8⟩

/-- The cube built in `main` (main.cpp 420-433). -/
def mainCube {K : Type} [Field K] : Cube3D K :=
  Cube3D.ofPoints ⟨0, 0, 5⟩ ⟨5, 0, 5⟩ ⟨5, 5, 5⟩ ⟨0, 5, 5⟩
    ⟨0, 0, 10⟩ ⟨5, 0, 10⟩ ⟨5, 5, 10⟩ ⟨0, 5, 10⟩

/-- The initial camera `camLoc(2.5, 2.5, -2.5)` of `main` (main.cpp 432). -/
def mainCamera {K : Type} [Field K] : Vector3 K := ⟨5 / 2, 5 / 2, -(5 / 2)⟩

/-! ## The key handler of `main` (main.cpp 437-508) -/

/-- The keys distinguished by the `SDL_KEYDOWN` handler (main.cpp 451-505); `other` is
the `default` case. -/
inductive Key where
  | SDLK_LEFT
  | SDLK_RIGHT
  | SDLK_UP
  | SDLK_DOWN
  | SDLK_KP_PLUS
  | SDLK_KP_MINUS
  | SDLK_SPACE
  | SDLK_r
  | other
deriving DecidableEq, Repr

/-- The state owned by the event loop of `main`: the cube, the camera position
`camLoc` and the mode flag `translate` (main.cpp 432-437). -/
structure AppState where
  cube : Cube3D ℝ
  camLoc : Vector3 ℝ
  translate : Bool

/-- The `SDLK_SPACE` case (main.cpp 494-497): `camLoc = cube.getCenter()` followed by
`camLoc.z -= fabs(cube.point[0].z - cube.point[4].z) + 5.0`. -/
def recenterCamera {K : Type} [LinearOrderedField K] (cube : Cube3D K) : Vector3 K :=
  let camLoc := cube.getCenter
  ⟨camLoc.x, camLoc.y, camLoc.z - (|(cube.point 0).z - (cube.point 4).z| + 5)⟩

/-- The variable `minZDistance` of the `SDLK_KP_MINUS` case (main.cpp 481-486): it
starts at `INFINITY` and takes the minimum with the distance from the camera to each
vertex. -/
noncomputable def minZDistance (cube : Cube3D ℝ) (camLoc : Vector3 ℝ) : WithTop ℝ :=
  (List.ofFn cube.point).foldl
    (fun m p => min m ((Vector3.hypot (Vector3.hypot (camLoc.x - p.x) (camLoc.y - p.y))
      (camLoc.z - p.z) : ℝ) : WithTop ℝ)) ⊤

/-- One `SDL_KEYDOWN` event (main.cpp 450-505): the effect of a key on the cube, the
camera and the mode. -/
noncomputable def keyDown (s : AppState) : Key → AppState
  | .SDLK_LEFT =>
    if s.translate then { s with cube := s.cube.translate ⟨-(1 / 4), 0, 0⟩ }
    else { s with cube := s.cube.rotateAbout .Y_AXIS (-(5 / 2)) }
  | .SDLK_RIGHT =>
    if s.translate then { s with cube := s.cube.translate ⟨1 / 4, 0, 0⟩ }
    else { s with cube := s.cube.rotateAbout .Y_AXIS (5 / 2) }
  | .SDLK_UP =>
    if s.translate then { s with cube := s.cube.translate ⟨0, -(1 / 4), 0⟩ }
    else { s with cube := s.cube.rotateAbout .X_AXIS (5 / 2) }
  | .SDLK_DOWN =>
    if s.translate then { s with cube := s.cube.translate ⟨0, 1 / 4, 0⟩ }
    else { s with cube := s.cube.rotateAbout .X_AXIS (-(5 / 2)) }
  | .SDLK_KP_PLUS =>
    if s.translate then { s with cube := s.cube.translate ⟨0, 0, 1 / 4⟩ }
    else { s with cube := s.cube.rotateAbout .Z_AXIS (5 / 2) }
  | .SDLK_KP_MINUS =>
    if s.translate then
      (if minZDistance s.cube s.camLoc > (((1 / 2 : ℝ)) : WithTop ℝ) then
        { s with cube := s.cube.translate ⟨0, 0, -(1 / 4)⟩ }
      else s)
    else { s with cube := s.cube.rotateAbout .Z_AXIS (-(5 / 2)) }
  | .SDLK_SPACE => { s with camLoc := recenterCamera s.cube }
  | .SDLK_r => { s with translate := !s.translate }
  | .other => s

/-! ## Projection (main.cpp 13-16, 343-361) -/

/-- Function `mapDouble` (main.cpp 13-16). -/
def mapDouble {K : Type} [Field K] (valToMap valMin valMax mappedMin mappedMax : K) : K :=
  ((valToMap - valMin) / (valMax - valMin)) * (mappedMax - mappedMin) + mappedMin

/-- Function `perspectiveProjection` (main.cpp 343-361). -/
def perspectiveProjection {K : Type} [Field K] (cube : Cube3D K) (camera : Vector3 K)
    (screenWidth screenHeight : K) : Cube2D K :=
  let e : Vector3 K := ⟨0, 0, 1⟩
  ⟨fun i =>
    let d := cube.point i - camera
    let bx := ((e.z / d.z) * d.x) - e.x
    let by_ := ((e.z / d.z) * d.y) - e.y
    ⟨mapDouble bx (-1) 1 0 screenWidth, mapDouble by_ (-1) 1 0 screenHeight⟩⟩

/-! ## Doubles with infinities and NaN (for the rasteriser's guard) -/

/-- A C++ `double` as the rasteriser sees it: a finite value, `+∞` or `-∞`
(`negative = true`), or NaN.  Signed zeros are not distinguished. -/
inductive Double (K : Type) where
  | finite (v : K)
  | infinite (negative : Bool)
  | nan
deriving DecidableEq, Repr

namespace Double

variable {K : Type} [LinearOrderedField K] [FloorRing K]

/-- The library predicate `isinf`: true for `+∞` and `-∞` only, false for NaN. -/
def isinf : Double K → Bool
  | infinite _ => true
  | _ => false

/-- IEEE addition. -/
def add : Double K → Double K → Double K
  | finite a, finite b => finite (a + b)
  | nan, _ => nan
  | _, nan => nan
  | infinite s, infinite t => if s = t then infinite s else nan
  | infinite s, finite _ => infinite s
  | finite _, infinite t => infinite t

/-- IEEE subtraction. -/
def sub : Double K → Double K → Double K
  | finite a, finite b => finite (a - b)
  | nan, _ => nan
  | _, nan => nan
  | infinite s, infinite t => if s = t then nan else infinite s
  | infinite s, finite _ => infinite s
  | finite _, infinite t => infinite (!t)

/-- IEEE multiplication. -/
def mul : Double K → Double K → Double K
  | finite a, finite b => finite (a * b)
  | nan, _ => nan
  | _, nan => nan
  | infinite s, infinite t => infinite (xor s t)
  | infinite s, finite b => if b = 0 then nan else infinite (xor s (decide (b < 0)))
  | finite a, infinite t => if a = 0 then nan else infinite (xor (decide (a < 0)) t)

/-- IEEE division (a zero divisor is read as `+0`). -/
def div : Double K → Double K → Double K
  | finite a, finite b =>
      if b = 0 then (if a = 0 then nan else infinite (decide (a < 0))) else finite (a / b)
  | nan, _ => nan
  | _, nan => nan
  | infinite _, infinite _ => nan
  | infinite s, finite b => infinite (xor s (decide (b < 0)))
  | finite _, infinite _ => finite 0

instance : Add (Double K) := ⟨add⟩
instance : Sub (Double K) := ⟨sub⟩
instance : Mul (Double K) := ⟨mul⟩
instance : Div (Double K) := ⟨div⟩

/-- The library function `floor`. -/
def floor : Double K → Double K
  | finite a => finite (⌊a⌋ : ℤ)
  | infinite s => infinite s
  | nan => nan

/-- The library function `fabs`. -/
def fabs : Double K → Double K
  | finite a => finite |a|
  | infinite _ => infinite false
  | nan => nan

/-- The comparison `a > b`; false when either side is NaN. -/
def gt : Double K → Double K → Bool
  | finite a, finite b => decide (a > b)
  | nan, _ => false
  | _, nan => false
  | infinite s, infinite t => !s && t
  | infinite s, finite _ => !s
  | finite _, infinite t => t

/-- The comparison `a == b`; false when either side is NaN. -/
def eq : Double K → Double K → Bool
  | finite a, finite b => decide (a = b)
  | infinite s, infinite t => decide (s = t)
  | _, _ => false

/-- Truncation toward zero of a finite value. -/
def truncToInt (v : K) : ℤ := if 0 ≤ v then ⌊v⌋ else ⌈v⌉

/-- The implicit conversion `double → int`: truncation toward zero.  For NaN and
the infinities ISO C++ leaves the result undefined; the value recorded here is the
one x86-64 produces (`INT_MIN`). -/
def toInt : Double K → ℤ
  | finite v => truncToInt v
  | _ => -2147483648

end Double

/-! ## `rotateAbout` on doubles with NaN (for the degenerate axis) -/

namespace Double

variable {K : Type} [LinearOrderedField K] [FloorRing K]

/-- IEEE negation. -/
def neg : Double K → Double K
  | finite a => finite (-a)
  | infinite s => infinite (!s)
  | nan => nan

instance : Neg (Double K) := ⟨neg⟩

/-- The library function `cos`: NaN outside the finite values. -/
noncomputable def cos : Double ℝ → Double ℝ
  | finite t => finite (Real.cos t)
  | _ => nan

/-- The library function `sin`: NaN outside the finite values. -/
noncomputable def sin : Double ℝ → Double ℝ
  | finite t => finite (Real.sin t)
  | _ => nan

/-- The library function `hypot`: `+∞` when an argument is infinite, otherwise NaN when
an argument is NaN. -/
noncomputable def hypot : Double ℝ → Double ℝ → Double ℝ
  | finite a, finite b => finite (Real.sqrt (a * a + b * b))
  | infinite _, _ => infinite false
  | _, infinite _ => infinite false
  | _, _ => nan

end Double

/-- A vector of finite coordinates, read as a vector of doubles. -/
def Vector3.toDouble (v : Vector3 ℝ) : Vector3 (Double ℝ) :=
  ⟨Double.finite v.x, Double.finite v.y, Double.finite v.z⟩

/-- A cube of finite coordinates, read as a cube of doubles. -/
def Cube3D.toDouble (c : Cube3D ℝ) : Cube3D (Double ℝ) := ⟨fun i => (c.point i).toDouble⟩

/-- Function `getMagnitude` (main.cpp 144-147) on doubles. -/
noncomputable def Vector3.getMagnitudeD (v : Vector3 (Double ℝ)) : Double ℝ :=
  Double.hypot (Double.hypot v.x v.y) v.z

/-- Function `getUnitVector` (main.cpp 149-152) on doubles. -/
noncomputable def Vector3.getUnitVectorD (v : Vector3 (Double ℝ)) : Vector3 (Double ℝ) :=
  v / v.getMagnitudeD

/-- Function `rotate` (main.cpp 290-306) on doubles. -/
noncomputable def Cube3D.rotateD (p q d : Vector3 (Double ℝ)) (theta : Double ℝ) :
    Vector3 (Double ℝ) :=
  let x := p.x; let y := p.y; let z := p.z
  let a := q.x; let b := q.y; let c := q.z
  let u := d.x; let v := d.y; let w := d.z
  let t1 := u * x - v * y - w * z
  let t2 := Double.finite 1 - Double.cos theta
  ⟨(a * (v * v + w * w) - u * (b * v + c * w - t1)) * t2 + x * Double.cos theta
      + (-c * v + b * w - w * y + v * z) * Double.sin theta,
   (b * (u * u + w * w) - v * (a * u + c * w - t1)) * t2 + y * Double.cos theta
      + (c * u - a * w + w * x - u * z) * Double.sin theta,
   (c * (u * u + v * v) - w * (a * u + b * v - t1)) * t2 + z * Double.cos theta
      + (-b * u + a * v - v * x + u * y) * Double.sin theta⟩

/-- The first pivot point of `rotateAbout` (main.cpp 312-328) on doubles. -/
def Cube3D.pivot1D {K : Type} [LinearOrderedField K] [FloorRing K] (c : Cube3D (Double K)) :
    Axis → Vector3 (Double K)
  | .X_AXIS => (c.point 0 + c.point 3 + c.point 4 + c.point 7) / (Double.finite 4 : Double K)
  | .Y_AXIS => (c.point 0 + c.point 1 + c.point 4 + c.point 5) / (Double.finite 4 : Double K)
  | .Z_AXIS => (c.point 0 + c.point 1 + c.point 2 + c.point 3) / (Double.finite 4 : Double K)

/-- The second pivot point of `rotateAbout` (main.cpp 312-328) on doubles. -/
def Cube3D.pivot2D {K : Type} [LinearOrderedField K] [FloorRing K] (c : Cube3D (Double K)) :
    Axis → Vector3 (Double K)
  | .X_AXIS => (c.point 1 + c.point 2 + c.point 5 + c.point 6) / (Double.finite 4 : Double K)
  | .Y_AXIS => (c.point 2 + c.point 3 + c.point 6 + c.point 7) / (Double.finite 4 : Double K)
  | .Z_AXIS => (c.point 4 + c.point 5 + c.point 6 + c.point 7) / (Double.finite 4 : Double K)

/-- Function `rotateAbout` (main.cpp 308-336) on doubles: the same statements as
`Cube3D.rotateAbout`, with the arithmetic of `Double`, so that the division by a zero
magnitude is visible.  The function has no error path: it returns the eight new
vertices in every case. -/
noncomputable def Cube3D.rotateAboutD (c : Cube3D (Double ℝ)) (axis : Axis)
    (theta : Double ℝ) : Cube3D (Double ℝ) :=
  let p1 := c.pivot1D axis
  let p2 := c.pivot2D axis
  let d := (p2 - p1).getUnitVectorD
  ⟨fun i => Cube3D.rotateD (c.point i) p1 d
    (theta / Double.finite 180 * Double.finite Real.pi)⟩

/-- The cube of `main` with its depth set to zero: the back face coincides with the
front face. -/
def flatCube : Cube3D ℝ :=
  Cube3D.ofPoints ⟨0, 0, 5⟩ ⟨5, 0, 5⟩ ⟨5, 5, 5⟩ ⟨0, 5, 5⟩ ⟨0, 0, 5⟩ ⟨5, 0, 5⟩ ⟨5, 5, 5⟩ ⟨0, 5, 5⟩

/-! ## Wu's line rasteriser (main.cpp 18-102) -/

section Rasteriser

variable {K : Type} [LinearOrderedField K] [FloorRing K]

open Double

/-- Function `round` (main.cpp 18). -/
def round (x : Double K) : Double K := floor (x + finite (1 / 2))

/-- Function `fPart` (main.cpp 19). -/
def fPart (x : Double K) : Double K := x - floor x

/-- Function `rfPart` (main.cpp 20). -/
def rfPart (x : Double K) : Double K := finite 1 - fPart x

/-- One pixel write: the arguments `x`, `y`, `brightness` of one call of `plot`. -/
structure Plot (K : Type) where
  x : ℤ
  y : ℤ
  brightness : Double K
deriving DecidableEq, Repr

/-- Function `plot` (main.cpp 22-26): one write to the renderer at pixel `(x, y)`
with alpha `brightness * 255`.  The colour and the renderer are passed through
unchanged and are left out. -/
def plot (x y : ℤ) (brightness : Double K) : Plot K := ⟨x, y, brightness⟩

/-- Number of iterations of `for (int x = lo; x <= bound; x++)`: the integers from
`lo` up to `floor bound`.  The test is false at once for a NaN or `-∞` bound; a
`+∞` bound cannot arise, since past the guard of `wuLine` `xPixel2` is finite
or NaN. -/
def tripCount (lo : ℤ) : Double K → ℕ
  | finite b => (⌊b⌋ + 1 - lo).toNat
  | _ => 0

/-- The interior loops of `wuLine` (main.cpp 82-87 when `steep`, 95-100 otherwise):
`n` iterations starting at the integer `x` with the running ordinate `yIntersection`.
The two loops differ only in the order of the two pixel arguments of `plot`. -/
def wuLoop (steep : Bool) (gradient : Double K) : ℕ → ℤ → Double K → List (Plot K)
  | 0, _, _ => []
  | n + 1, x, yIntersection =>
    (if steep then
      [plot (toInt yIntersection) x (rfPart yIntersection),
       plot (toInt (yIntersection + finite 1)) x (fPart yIntersection)]
    else
      [plot x (toInt yIntersection) (rfPart yIntersection),
       plot x (toInt (yIntersection + finite 1)) (fPart yIntersection)])
    ++ wuLoop steep gradient n (x + 1) (yIntersection + gradient)

/-- Function `wuLine` (main.cpp 28-102), returning the calls of `plot` in the order
in which they are made.  `ax0, ay0, ax1, ay1` are `x0, y0, x1, y1` after the swap of
lines 34-38, and `bx0, by0, bx1, by1` after the swap of lines 40-44. -/
def wuLine (x0 y0 x1 y1 : Double K) : List (Plot K) :=
  if isinf x0 || isinf y0 || isinf x1 || isinf y1 then [] else
  let steep := gt (fabs (y1 - y0)) (fabs (x1 - x0))
  let ax0 := if steep then y0 else x0
  let ay0 := if steep then x0 else y0
  let ax1 := if steep then y1 else x1
  let ay1 := if steep then x1 else y1
  let bx0 := if gt ax0 ax1 then ax1 else ax0
  let bx1 := if gt ax0 ax1 then ax0 else ax1
  let by0 := if gt ax0 ax1 then ay1 else ay0
  let by1 := if gt ax0 ax1 then ay0 else ay1
  let dx := bx1 - bx0
  let dy := by1 - by0
  let gradient := if eq dx (finite 0) then finite 1 else dy / dx
  let xEnd := round bx0
  let yEnd := by0 + gradient * (xEnd - bx0)
  let xGap := rfPart (bx0 + finite (1 / 2))
  let xPixel1 := xEnd
  let yPixel1 := floor yEnd
  let first :=
    if steep then
      [plot (toInt yPixel1) (toInt xPixel1) (rfPart yEnd * xGap),
       plot (toInt (yPixel1 + finite 1)) (toInt xPixel1) (fPart yEnd * xGap)]
    else
      [plot (toInt xPixel1) (toInt yPixel1) (rfPart yEnd * xGap),
       plot (toInt xPixel1) (toInt (yPixel1 + finite 1)) (fPart yEnd * xGap)]
  let yIntersection := yEnd + gradient
  let xEnd2 := round bx1
  let yEnd2 := by1 + gradient * (xEnd2 - bx1)
  let xGap2 := fPart (bx1 + finite (1 / 2))
  let xPixel2 := xEnd2
  let yPixel2 := floor yEnd2
  let second :=
    if steep then
      [plot (toInt yPixel2) (toInt xPixel2) (rfPart yEnd2 * xGap2),
       plot (toInt (yPixel2 + finite 1)) (toInt xPixel2) (fPart yEnd2 * xGap2)]
    else
      [plot (toInt xPixel2) (toInt yPixel2) (rfPart yEnd2 * xGap2),
       plot (toInt xPixel2) (toInt (yPixel2 + finite 1)) (fPart yEnd2 * xGap2)]
  let lo := toInt (xPixel1 + finite 1)
  first ++ second ++
    wuLoop steep gradient (tripCount lo (xPixel2 - finite 1)) lo yIntersection

/-- The segment in working space (steps 2 and 3 of the rasteriser's contract): the
endpoints after the `x`/`y` transposition of a steep segment and after the
left-to-right ordering. -/
structure Working (K : Type) where
  x0 : K
  y0 : K
  x1 : K
  y1 : K
deriving DecidableEq, Repr

/-- A segment is steep when `|y1 - y0| > |x1 - x0|` (main.cpp 32). -/
def isSteep (x0 y0 x1 y1 : K) : Bool := decide (|y1 - y0| > |x1 - x0|)

/-- The working-space endpoints of a segment with finite coordinates
(main.cpp 34-44). -/
def working (x0 y0 x1 y1 : K) : Working K :=
  let t : Working K := if isSteep x0 y0 x1 y1 then ⟨y0, x0, y1, x1⟩ else ⟨x0, y0, x1, y1⟩
  if t.x0 > t.x1 then ⟨t.x1, t.y1, t.x0, t.y0⟩ else t

/-- The gradient of a working-space segment: `dy / dx`, or `1` when `dx = 0`
(main.cpp 46-49). -/
def Working.gradient (w : Working K) : K :=
  if w.x1 - w.x0 = 0 then 1 else (w.y1 - w.y0) / (w.x1 - w.x0)

/-- The column of the first endpoint, `round(x0')`, as an integer. -/
def Working.col0 (w : Working K) : ℤ := ⌊w.x0 + 1 / 2⌋

/-- The column of the second endpoint, `round(x1')`, as an integer. -/
def Working.col1 (w : Working K) : ℤ := ⌊w.x1 + 1 / 2⌋

/-- The column of a write in working space: the pixel `y` for a steep segment, the
pixel `x` otherwise. -/
def Plot.column (steep : Bool) (p : Plot K) : ℤ := if steep then p.y else p.x

/-- The row of a write in working space: the pixel `x` for a steep segment, the
pixel `y` otherwise. -/
def Plot.row (steep : Bool) (p : Plot K) : ℤ := if steep then p.x else p.y

/-- A write with its two pixel coordinates exchanged. -/
def Plot.swap (p : Plot K) : Plot K := ⟨p.y, p.x, p.brightness⟩

end Rasteriser

/-! # Theorems -/

/-! ## Componentwise reading of the vector operators -/

section VectorLemmas

variable {K : Type}

theorem Vector3.ext_iff3 (a b : Vector3 K) : a = b ↔ a.x = b.x ∧ a.y = b.y ∧ a.z = b.z := by
  cases a; cases b; simp

@[simp] theorem Vector3.add_x [Add K] (a b : Vector3 K) : (a + b).x = a.x + b.x := rfl
@[simp] theorem Vector3.add_y [Add K] (a b : Vector3 K) : (a + b).y = a.y + b.y := rfl
@[simp] theorem Vector3.add_z [Add K] (a b : Vector3 K) : (a + b).z = a.z + b.z := rfl
@[simp] theorem Vector3.sub_x [Sub K] (a b : Vector3 K) : (a - b).x = a.x - b.x := rfl
@[simp] theorem Vector3.sub_y [Sub K] (a b : Vector3 K) : (a - b).y = a.y - b.y := rfl
@[simp] theorem Vector3.sub_z [Sub K] (a b : Vector3 K) : (a - b).z = a.z - b.z := rfl
@[simp] theorem Vector3.div_x [Div K] (a : Vector3 K) (r : K) : (a / r).x = a.x / r := rfl
@[simp] theorem Vector3.div_y [Div K] (a : Vector3 K) (r : K) : (a / r).y = a.y / r := rfl
@[simp] theorem Vector3.div_z [Div K] (a : Vector3 K) (r : K) : (a / r).z = a.z / r := rfl
@[simp] theorem Vector3.zero_x [Zero K] : (Vector3.zero : Vector3 K).x = 0 := rfl
@[simp] theorem Vector3.zero_y [Zero K] : (Vector3.zero : Vector3 K).y = 0 := rfl
@[simp] theorem Vector3.zero_z [Zero K] : (Vector3.zero : Vector3 K).z = 0 := rfl

theorem Cube3D.ext_point {c1 c2 : Cube3D K} (h : ∀ i, c1.point i = c2.point i) : c1 = c2 := by
  cases c1; cases c2; simp only [Cube3D.mk.injEq]; exact funext h

end VectorLemmas

/-! ## Translation -/

/-- C4. Translation additivity: `translate a` followed by `translate b` gives the same
eight vertices as one `translate (a + b)`, and `translate delta` replaces every vertex
`p` by `p + delta`. -/
theorem translate_additive {K : Type} [Field K] (c : Cube3D K) (a b : Vector3 K) :
    (c.translate a).translate b = c.translate (a + b) ∧
    ∀ (delta : Vector3 K) (i : Fin 8), (c.translate delta).point i = c.point i + delta := by
  refine ⟨?_, fun delta i => rfl⟩
  apply Cube3D.ext_point
  intro i
  simp only [Cube3D.translate, Vector3.ext_iff3, Vector3.add_x, Vector3.add_y, Vector3.add_z]
  exact ⟨add_assoc _ _ _, add_assoc _ _ _, add_assoc _ _ _⟩

/-! ## Projection -/

/-- The projected abscissa of vertex `i`, in closed form. -/
theorem projection_x {K : Type} [Field K] (cube : Cube3D K) (camera : Vector3 K) (w h : K)
    (i : Fin 8) :
    ((perspectiveProjection cube camera w h).point i).x =
      (((cube.point i).x - camera.x) / ((cube.point i).z - camera.z) + 1) / 2 * w := by
  simp only [perspectiveProjection, mapDouble, Vector3.sub_x, Vector3.sub_z]
  ring

/-- The projected ordinate of vertex `i`, in closed form. -/
theorem projection_y {K : Type} [Field K] (cube : Cube3D K) (camera : Vector3 K) (w h : K)
    (i : Fin 8) :
    ((perspectiveProjection cube camera w h).point i).y =
      (((cube.point i).y - camera.y) / ((cube.point i).z - camera.z) + 1) / 2 * h := by
  simp only [perspectiveProjection, mapDouble, Vector3.sub_y, Vector3.sub_z]
  ring

/-- For a positive depth `dz` and a positive screen extent `w`, the mapped coordinate
`(dx / dz + 1) / 2 * w` lies left of `w / 2` exactly when `dx < 0`. -/
theorem mapped_lt_half_iff {K : Type} [LinearOrderedField K] (dx dz w : K) (hz : 0 < dz)
    (hw : 0 < w) : (dx / dz + 1) / 2 * w < w / 2 ↔ dx < 0 := by
  have h1 : (dx / dz + 1) / 2 * w - w / 2 = dx / dz * (w / 2) := by ring
  have h2 : 0 < w / 2 := by positivity
  constructor
  · intro h
    have h3 : dx / dz * (w / 2) < 0 := by linarith
    have h4 : dx / dz < 0 := by
      by_contra hcon
      push_neg at hcon
      have := mul_nonneg hcon h2.le
      linarith
    exact (div_neg_iff.mp h4).elim (fun hh => absurd hh.2 (not_lt.mpr hz.le)) (fun hh => hh.1)
  · intro h
    have h4 : dx / dz < 0 := div_neg_of_neg_of_pos h hz
    have := mul_neg_of_neg_of_pos h4 h2
    linarith

/-- For a positive depth `dz` and a positive screen extent `w`, the mapped coordinate
`(dx / dz + 1) / 2 * w` lies right of `w / 2` exactly when `0 < dx`. -/
theorem half_lt_mapped_iff {K : Type} [LinearOrderedField K] (dx dz w : K) (hz : 0 < dz)
    (hw : 0 < w) : w / 2 < (dx / dz + 1) / 2 * w ↔ 0 < dx := by
  have h := mapped_lt_half_iff (-dx) dz w hz hw
  have h1 : (-dx / dz + 1) / 2 * w = w - (dx / dz + 1) / 2 * w := by ring
  rw [h1] at h
  constructor
  · intro h5
    have := h.mp (by linarith)
    linarith
  · intro h5
    have := h.mpr (by linarith)
    linarith

/-- C8. Projection quadrant: for a vertex strictly in front of the camera
(`P.z > C.z`) and a screen of positive width and height, the projected `x` is below
`screenWidth / 2` exactly when `P.x < C.x` and above it exactly when `P.x > C.x`, and
likewise for `y` against `screenHeight / 2`. -/
theorem projection_quadrant {K : Type} [LinearOrderedField K] (cube : Cube3D K)
    (camera : Vector3 K) (screenWidth screenHeight : K) (i : Fin 8)
    (hz : (cube.point i).z > camera.z) (hw : 0 < screenWidth) (hh : 0 < screenHeight) :
    (((perspectiveProjection cube camera screenWidth screenHeight).point i).x < screenWidth / 2
        ↔ (cube.point i).x < camera.x) ∧
    (((perspectiveProjection cube camera screenWidth screenHeight).point i).x > screenWidth / 2
        ↔ (cube.point i).x > camera.x) ∧
    (((perspectiveProjection cube camera screenWidth screenHeight).point i).y < screenHeight / 2
        ↔ (cube.point i).y < camera.y) ∧
    (((perspectiveProjection cube camera screenWidth screenHeight).point i).y > screenHeight / 2
        ↔ (cube.point i).y > camera.y) := by
  have hz0 : 0 < (cube.point i).z - camera.z := sub_pos.mpr hz
  rw [projection_x, projection_y]
  refine ⟨?_, ?_, ?_, ?_⟩
  · rw [mapped_lt_half_iff _ _ _ hz0 hw]; exact sub_neg
  · rw [gt_iff_lt, half_lt_mapped_iff _ _ _ hz0 hw]; exact sub_pos
  · rw [mapped_lt_half_iff _ _ _ hz0 hh]; exact sub_neg
  · rw [gt_iff_lt, half_lt_mapped_iff _ _ _ hz0 hh]; exact sub_pos

/-- C9. Projection formula: with `d = point[i] - camera` and `d.z ≠ 0`, vertex `i` is
projected to `x = ((d.x / d.z) + 1) / 2 * screenWidth` and
`y = ((d.y / d.z) + 1) / 2 * screenHeight`: the normalised coordinates `d.x / d.z` and
`d.y / d.z` go through `mapDouble`, which is linear and sends `-1` to `0` and `1` to the
screen extent.  (The hypothesis `d.z ≠ 0` delimits the inputs on which division in a
field agrees with the division of the program.) -/
theorem projection_formula {K : Type} [LinearOrderedField K] (cube : Cube3D K)
    (camera : Vector3 K) (screenWidth screenHeight : K) (i : Fin 8)
    (hz : (cube.point i - camera).z ≠ 0) :
    (((perspectiveProjection cube camera screenWidth screenHeight).point i).x =
        (((cube.point i - camera).x / (cube.point i - camera).z) + 1) / 2 * screenWidth ∧
     ((perspectiveProjection cube camera screenWidth screenHeight).point i).y =
        (((cube.point i - camera).y / (cube.point i - camera).z) + 1) / 2 * screenHeight) ∧
    (((perspectiveProjection cube camera screenWidth screenHeight).point i).x =
        mapDouble ((cube.point i - camera).x / (cube.point i - camera).z) (-1) 1 0 screenWidth ∧
     ((perspectiveProjection cube camera screenWidth screenHeight).point i).y =
        mapDouble ((cube.point i - camera).y / (cube.point i - camera).z) (-1) 1 0 screenHeight) ∧
    (∀ t extent : K, mapDouble t (-1) 1 0 extent = (t + 1) / 2 * extent) ∧
    (∀ extent : K, mapDouble (-1) (-1) 1 0 extent = 0 ∧ mapDouble 1 (-1) 1 0 extent = extent) := by
  have hmap : ∀ t extent : K, mapDouble t (-1) 1 0 extent = (t + 1) / 2 * extent := by
    intro t extent
    simp only [mapDouble]
    ring
  refine ⟨⟨projection_x cube camera screenWidth screenHeight i,
    projection_y cube camera screenWidth screenHeight i⟩, ⟨?_, ?_⟩, hmap, ?_⟩
  · rw [hmap, projection_x]; rfl
  · rw [hmap, projection_y]; rfl
  · intro extent
    rw [hmap, hmap]
    constructor
    · ring
    · have _ := hz
      ring

/-- A witness of C8 in the reference configuration: with the camera `(2.5, 2.5, -2.5)`
and a 400 by 400 screen, vertex 0 = `(0, 0, 5)` of the cube of `main` projects to
`x < 200`, `y < 200`, and vertex 6 = `(5, 5, 10)` projects to `x > 200`, `y > 200`. -/
theorem projection_quadrant_witness :
    ((mainCube : Cube3D ℚ).point 0 = ⟨0, 0, 5⟩ ∧
      ((perspectiveProjection (mainCube : Cube3D ℚ) mainCamera 400 400).point 0).x < 200 ∧
      ((perspectiveProjection (mainCube : Cube3D ℚ) mainCamera 400 400).point 0).y < 200) ∧
    ((mainCube : Cube3D ℚ).point 6 = ⟨5, 5, 10⟩ ∧
      ((perspectiveProjection (mainCube : Cube3D ℚ) mainCamera 400 400).point 6).x > 200 ∧
      ((perspectiveProjection (mainCube : Cube3D ℚ) mainCamera 400 400).point 6).y > 200) := by
  have h0 := projection_quadrant (mainCube : Cube3D ℚ) mainCamera 400 400 0
    (by simp [mainCube, mainCamera, Cube3D.ofPoints]; norm_num) (by norm_num) (by norm_num)
  have h6 := projection_quadrant (mainCube : Cube3D ℚ) mainCamera 400 400 6
    (by simp [mainCube, mainCamera, Cube3D.ofPoints]; norm_num) (by norm_num) (by norm_num)
  have e : (400 : ℚ) / 2 = 200 := by norm_num
  rw [e] at h0 h6
  refine ⟨⟨rfl, h0.1.mpr ?_, h0.2.2.1.mpr ?_⟩, ⟨rfl, h6.2.1.mpr ?_, h6.2.2.2.mpr ?_⟩⟩ <;>
    simp [mainCube, mainCamera, Cube3D.ofPoints]

/-- A witness of C9: vertex 0 of the cube of `main` seen from the initial camera on a
400 by 400 screen, where `d.z = 7.5`; it is projected to `(200 / 3, 200 / 3)`. -/
theorem projection_formula_witness :
    ((mainCube : Cube3D ℚ).point 0 - mainCamera).z ≠ 0 ∧
    ((perspectiveProjection (mainCube : Cube3D ℚ) mainCamera 400 400).point 0).x =
        ((((mainCube : Cube3D ℚ).point 0 - mainCamera).x
          / ((mainCube : Cube3D ℚ).point 0 - mainCamera).z) + 1) / 2 * 400 ∧
    ((perspectiveProjection (mainCube : Cube3D ℚ) mainCamera 400 400).point 0).y =
        ((((mainCube : Cube3D ℚ).point 0 - mainCamera).y
          / ((mainCube : Cube3D ℚ).point 0 - mainCamera).z) + 1) / 2 * 400 :=
  have hz : ((mainCube : Cube3D ℚ).point 0 - mainCamera).z ≠ 0 := by
    simp [mainCube, mainCamera, Cube3D.ofPoints]
    norm_num
  ⟨hz, (projection_formula (mainCube : Cube3D ℚ) mainCamera 400 400 0 hz).1⟩

/-! ## Rotation -/

/-- The magnitude computed by the nested `hypot` is the Euclidean norm. -/
theorem Vector3.getMagnitude_eq_norm (v : Vector3 ℝ) : v.getMagnitude = v.norm := by
  unfold Vector3.getMagnitude Vector3.hypot Vector3.norm
  rw [Real.mul_self_sqrt (add_nonneg (mul_self_nonneg _) (mul_self_nonneg _))]
  congr 1
  ring

/-- The squared norm. -/
theorem Vector3.norm_sq (v : Vector3 ℝ) : v.norm ^ 2 = v.x ^ 2 + v.y ^ 2 + v.z ^ 2 := by
  unfold Vector3.norm
  exact Real.sq_sqrt (by positivity)

/-- A vector other than zero has a positive norm. -/
theorem Vector3.norm_pos_of_ne {a b : Vector3 ℝ} (h : a ≠ b) : 0 < (b - a).norm := by
  unfold Vector3.norm
  apply Real.sqrt_pos.mpr
  have hne : ¬ (a.x = b.x ∧ a.y = b.y ∧ a.z = b.z) := fun hh => h ((Vector3.ext_iff3 a b).mpr hh)
  simp only [Vector3.sub_x, Vector3.sub_y, Vector3.sub_z]
  by_contra hcon
  push_neg at hcon
  have h1 : (b.x - a.x) ^ 2 = 0 := by nlinarith [sq_nonneg (b.x - a.x), sq_nonneg (b.y - a.y), sq_nonneg (b.z - a.z)]
  have h2 : (b.y - a.y) ^ 2 = 0 := by nlinarith [sq_nonneg (b.x - a.x), sq_nonneg (b.y - a.y), sq_nonneg (b.z - a.z)]
  have h3 : (b.z - a.z) ^ 2 = 0 := by nlinarith [sq_nonneg (b.x - a.x), sq_nonneg (b.y - a.y), sq_nonneg (b.z - a.z)]
  have e1 : b.x - a.x = 0 := pow_eq_zero_iff (two_ne_zero) |>.mp h1
  have e2 : b.y - a.y = 0 := pow_eq_zero_iff (two_ne_zero) |>.mp h2
  have e3 : b.z - a.z = 0 := pow_eq_zero_iff (two_ne_zero) |>.mp h3
  exact hne ⟨by linarith, by linarith, by linarith⟩

/-- The unit vector between two distinct points has squared length one. -/
theorem Vector3.getUnitVector_unit {a b : Vector3 ℝ} (h : a ≠ b) :
    (b - a).getUnitVector.x * (b - a).getUnitVector.x
      + (b - a).getUnitVector.y * (b - a).getUnitVector.y
      + (b - a).getUnitVector.z * (b - a).getUnitVector.z = 1 := by
  have hpos := Vector3.norm_pos_of_ne h
  have hsq := Vector3.norm_sq (b - a)
  unfold Vector3.getUnitVector
  rw [Vector3.getMagnitude_eq_norm]
  simp only [Vector3.sub_x, Vector3.sub_y, Vector3.sub_z] at hsq
  simp only [Vector3.div_x, Vector3.div_y, Vector3.div_z, Vector3.sub_x, Vector3.sub_y,
    Vector3.sub_z]
  field_simp
  linear_combination -hsq

/-- The unit vector between two distinct points has norm one. -/
theorem Vector3.getUnitVector_norm {a b : Vector3 ℝ} (h : a ≠ b) :
    (b - a).getUnitVector.norm = 1 := by
  have hu := Vector3.getUnitVector_unit h
  unfold Vector3.norm
  rw [show (b - a).getUnitVector.x ^ 2 + (b - a).getUnitVector.y ^ 2
      + (b - a).getUnitVector.z ^ 2 = 1 by nlinarith [hu]]
  exact Real.sqrt_one

/-- What `rotate` computes for a unit direction `d`: the rotated point, displaced along
`d` by `-2 (1 - cos θ) (d.y p.y + d.z p.z)`.  The displacement comes from the term
`t1 = u x - v y - w z`, where the rotation formula has `u x + v y + w z`. -/
theorem Cube3D.rotate_eq_rodrigues_sub (p q d : Vector3 ℝ) (theta : ℝ)
    (hd : d.x * d.x + d.y * d.y + d.z * d.z = 1) :
    Cube3D.rotate p q d theta =
      rodrigues p q d theta - d.scale (2 * (1 - Real.cos theta) * (d.y * p.y + d.z * p.z)) := by
  rw [Vector3.ext_iff3]
  simp only [Cube3D.rotate, rodrigues, Vector3.scale, Vector3.cross, Vector3.dot, Vector3.sub_x,
    Vector3.sub_y, Vector3.sub_z, Vector3.add_x, Vector3.add_y, Vector3.add_z]
  refine ⟨?_, ?_, ?_⟩
  · linear_combination ((1 - Real.cos theta) * q.x) * hd
  · linear_combination ((1 - Real.cos theta) * q.y) * hd
  · linear_combination ((1 - Real.cos theta) * q.z) * hd

/-- The squared length of `(rotate p q d θ - q) × d` equals that of `(p - q) × d` for a
unit direction `d`. -/
theorem Cube3D.rotate_cross_sq (p q d : Vector3 ℝ) (theta : ℝ)
    (hd : d.x * d.x + d.y * d.y + d.z * d.z = 1) :
    ((Cube3D.rotate p q d theta - q).cross d).x ^ 2
      + ((Cube3D.rotate p q d theta - q).cross d).y ^ 2
      + ((Cube3D.rotate p q d theta - q).cross d).z ^ 2
    = ((p - q).cross d).x ^ 2 + ((p - q).cross d).y ^ 2 + ((p - q).cross d).z ^ 2 := by
  obtain ⟨x, y, z⟩ := p
  obtain ⟨a, b, c⟩ := q
  obtain ⟨u, v, w⟩ := d
  simp only at hd
  have hcs := Real.cos_sq_add_sin_sq theta
  simp only [Cube3D.rotate, Vector3.cross, Vector3.sub_x, Vector3.sub_y, Vector3.sub_z]
  generalize Real.cos theta = cs at hcs ⊢
  generalize Real.sin theta = sn at hcs ⊢
  have hx : ((b * (u * u + w * w) - v * (a * u + c * w - (u * x - v * y - w * z))) * (1 - cs)
        + y * cs + (c * u - a * w + w * x - u * z) * sn - b) * w
      - ((c * (u * u + v * v) - w * (a * u + b * v - (u * x - v * y - w * z))) * (1 - cs)
        + z * cs + (-b * u + a * v - v * x + u * y) * sn - c) * v
      = cs * ((y - b) * w - (z - c) * v)
        + sn * ((x - a) - (u * (x - a) + v * (y - b) + w * (z - c)) * u) := by
    linear_combination ((1 - cs) * (b * w - c * v) + sn * (x - a)) * hd
  have hy : ((c * (u * u + v * v) - w * (a * u + b * v - (u * x - v * y - w * z))) * (1 - cs)
        + z * cs + (-b * u + a * v - v * x + u * y) * sn - c) * u
      - ((a * (v * v + w * w) - u * (b * v + c * w - (u * x - v * y - w * z))) * (1 - cs)
        + x * cs + (-c * v + b * w - w * y + v * z) * sn - a) * w
      = cs * ((z - c) * u - (x - a) * w)
        + sn * ((y - b) - (u * (x - a) + v * (y - b) + w * (z - c)) * v) := by
    linear_combination ((1 - cs) * (c * u - a * w) + sn * (y - b)) * hd
  have hz : ((a * (v * v + w * w) - u * (b * v + c * w - (u * x - v * y - w * z))) * (1 - cs)
        + x * cs + (-c * v + b * w - w * y + v * z) * sn - a) * v
      - ((b * (u * u + w * w) - v * (a * u + c * w - (u * x - v * y - w * z))) * (1 - cs)
        + y * cs + (c * u - a * w + w * x - u * z) * sn - b) * u
      = cs * ((x - a) * v - (y - b) * u)
        + sn * ((z - c) - (u * (x - a) + v * (y - b) + w * (z - c)) * w) := by
    linear_combination ((1 - cs) * (a * v - b * u) + sn * (z - c)) * hd
  rw [hx, hy, hz]
  linear_combination
    (((y - b) * w - (z - c) * v) ^ 2 + ((z - c) * u - (x - a) * w) ^ 2
        + ((x - a) * v - (y - b) * u) ^ 2) * hcs
      + sn ^ 2 * ((u * (x - a) + v * (y - b) + w * (z - c)) ^ 2
        - ((x - a) ^ 2 + (y - b) ^ 2 + (z - c) ^ 2)) * hd

/-- C3. Distance-to-pivot preservation: when the two face centroids `p1 ≠ p2` selected
by the axis are distinct, every vertex has the same perpendicular distance to the line
through `p1` with direction `d = (p2 - p1) / |p2 - p1|` before and after
`rotateAbout axis theta`. -/
theorem distance_to_pivot_preserved (c : Cube3D ℝ) (axis : Axis) (theta : ℝ)
    (h : c.pivot1 axis ≠ c.pivot2 axis) (i : Fin 8) :
    distToLine ((c.rotateAbout axis theta).point i) (c.pivot1 axis)
        ((c.pivot2 axis - c.pivot1 axis) / (c.pivot2 axis - c.pivot1 axis).norm)
      = distToLine (c.point i) (c.pivot1 axis)
        ((c.pivot2 axis - c.pivot1 axis) / (c.pivot2 axis - c.pivot1 axis).norm) := by
  have hunit := Vector3.getUnitVector_unit h
  have hd : (c.pivot2 axis - c.pivot1 axis) / (c.pivot2 axis - c.pivot1 axis).norm
      = (c.pivot2 axis - c.pivot1 axis).getUnitVector := by
    unfold Vector3.getUnitVector
    rw [Vector3.getMagnitude_eq_norm]
  rw [hd]
  unfold distToLine
  congr 1
  unfold Vector3.norm
  congr 1
  exact Cube3D.rotate_cross_sq (c.point i) (c.pivot1 axis) _ (theta / 180 * Real.pi) hunit

/-- Vertex `i` after `rotateAbout`. -/
theorem Cube3D.rotateAbout_point (c : Cube3D ℝ) (axis : Axis) (theta : ℝ) (i : Fin 8) :
    (c.rotateAbout axis theta).point i =
      Cube3D.rotate (c.point i) (c.pivot1 axis) (c.pivot2 axis - c.pivot1 axis).getUnitVector
        (theta / 180 * Real.pi) := rfl

/-- A witness of C3 on the cube of `main`, rotated by the RIGHT key (`Y_AXIS`, 2.5 degrees). -/
theorem distance_to_pivot_preserved_witness :
    (mainCube : Cube3D ℝ).pivot1 Axis.Y_AXIS ≠ (mainCube : Cube3D ℝ).pivot2 Axis.Y_AXIS ∧
    distToLine (((mainCube : Cube3D ℝ).rotateAbout Axis.Y_AXIS (5 / 2)).point 3)
        ((mainCube : Cube3D ℝ).pivot1 Axis.Y_AXIS)
        (((mainCube : Cube3D ℝ).pivot2 Axis.Y_AXIS - (mainCube : Cube3D ℝ).pivot1 Axis.Y_AXIS) /
          ((mainCube : Cube3D ℝ).pivot2 Axis.Y_AXIS - (mainCube : Cube3D ℝ).pivot1 Axis.Y_AXIS).norm)
      = distToLine ((mainCube : Cube3D ℝ).point 3) ((mainCube : Cube3D ℝ).pivot1 Axis.Y_AXIS)
        (((mainCube : Cube3D ℝ).pivot2 Axis.Y_AXIS - (mainCube : Cube3D ℝ).pivot1 Axis.Y_AXIS) /
          ((mainCube : Cube3D ℝ).pivot2 Axis.Y_AXIS - (mainCube : Cube3D ℝ).pivot1 Axis.Y_AXIS).norm) :=
  have h : (mainCube : Cube3D ℝ).pivot1 Axis.Y_AXIS ≠ (mainCube : Cube3D ℝ).pivot2 Axis.Y_AXIS := by
    intro hh
    have hy := congrArg Vector3.y hh
    simp [Cube3D.pivot1, Cube3D.pivot2, mainCube, Cube3D.ofPoints] at hy
    norm_num at hy
  ⟨h, distance_to_pivot_preserved mainCube Axis.Y_AXIS (5 / 2) h 3⟩

/-! ### The rotation about the `y` direction, evaluated -/

/-- Function `rotate` about a line with direction `(0, 1, 0)`: the `x` and `z` coordinates
turn about the pivot, and the `y` coordinate is multiplied by `2 cos θ - 1`. -/
theorem Cube3D.rotate_dirY (p q : Vector3 ℝ) (theta : ℝ) :
    Cube3D.rotate p q ⟨0, 1, 0⟩ theta =
      ⟨q.x * (1 - Real.cos theta) + p.x * Real.cos theta + (p.z - q.z) * Real.sin theta,
       p.y * (2 * Real.cos theta - 1),
       q.z * (1 - Real.cos theta) + p.z * Real.cos theta + (q.x - p.x) * Real.sin theta⟩ := by
  rw [Vector3.ext_iff3]
  simp only [Cube3D.rotate]
  refine ⟨?_, ?_, ?_⟩ <;> ring

/-- The unit vector of `(0, t, 0)` with `t > 0` is `(0, 1, 0)`. -/
theorem Vector3.getUnitVector_dirY (t : ℝ) (ht : 0 < t) :
    (⟨0, t, 0⟩ : Vector3 ℝ).getUnitVector = ⟨0, 1, 0⟩ := by
  have hm : (⟨0, t, 0⟩ : Vector3 ℝ).getMagnitude = t := by
    rw [Vector3.getMagnitude_eq_norm]
    unfold Vector3.norm
    simp only [ne_eq, OfNat.ofNat_ne_zero, not_false_eq_true, zero_pow, zero_add, add_zero]
    exact Real.sqrt_sq ht.le
  unfold Vector3.getUnitVector
  rw [hm, Vector3.ext_iff3]
  simp only [Vector3.div_x, Vector3.div_y, Vector3.div_z, zero_div, true_and, and_true]
  exact div_self ht.ne.symm

/-- The angle of 2.5 degrees in radians lies strictly between `0` and `π / 3`. -/
theorem angle_bounds : 0 < (5 / 2 / 180 * Real.pi : ℝ) ∧ (5 / 2 / 180 * Real.pi : ℝ) < Real.pi / 3 := by
  have hp := Real.pi_pos
  constructor
  · positivity
  · linarith

/-- The cosine of 2.5 degrees lies strictly between `1 / 2` and `1`. -/
theorem cos_angle_bounds :
    1 / 2 < Real.cos (5 / 2 / 180 * Real.pi) ∧ Real.cos (5 / 2 / 180 * Real.pi) < 1 := by
  have hp := Real.pi_pos
  obtain ⟨h0, h1⟩ := angle_bounds
  constructor
  · rw [← Real.cos_pi_div_three]
    exact Real.cos_lt_cos_of_nonneg_of_le_pi h0.le (by linarith) h1
  · apply lt_of_le_of_ne (Real.cos_le_one _)
    intro hc
    have := (Real.cos_eq_one_iff_of_lt_of_lt (by linarith) (by linarith)).mp hc
    linarith

/-- The two pivots of the cube of `main` for `Y_AXIS`. -/
theorem mainCube_pivots :
    (mainCube : Cube3D ℝ).pivot1 Axis.Y_AXIS = ⟨5 / 2, 0, 15 / 2⟩ ∧
    (mainCube : Cube3D ℝ).pivot2 Axis.Y_AXIS - (mainCube : Cube3D ℝ).pivot1 Axis.Y_AXIS
      = ⟨0, 5, 0⟩ := by
  simp only [Cube3D.pivot1, Cube3D.pivot2, mainCube, Cube3D.ofPoints, Vector3.ext_iff3,
    Vector3.sub_x, Vector3.sub_y, Vector3.sub_z, Vector3.div_x, Vector3.div_y, Vector3.div_z,
    Vector3.add_x, Vector3.add_y, Vector3.add_z]
  norm_num

/-- The cube of `main` after `rotateAbout(Y_AXIS, theta)`, vertex by vertex. -/
theorem mainCube_rotateAbout_Y (theta : ℝ) (i : Fin 8) :
    ((mainCube : Cube3D ℝ).rotateAbout Axis.Y_AXIS theta).point i =
      ⟨5 / 2 * (1 - Real.cos (theta / 180 * Real.pi))
          + ((mainCube : Cube3D ℝ).point i).x * Real.cos (theta / 180 * Real.pi)
          + (((mainCube : Cube3D ℝ).point i).z - 15 / 2) * Real.sin (theta / 180 * Real.pi),
       ((mainCube : Cube3D ℝ).point i).y * (2 * Real.cos (theta / 180 * Real.pi) - 1),
       15 / 2 * (1 - Real.cos (theta / 180 * Real.pi))
          + ((mainCube : Cube3D ℝ).point i).z * Real.cos (theta / 180 * Real.pi)
          + (5 / 2 - ((mainCube : Cube3D ℝ).point i).x) * Real.sin (theta / 180 * Real.pi)⟩ := by
  obtain ⟨h1, h2⟩ := mainCube_pivots
  rw [Cube3D.rotateAbout_point, h2, Vector3.getUnitVector_dirY 5 (by norm_num), Cube3D.rotate_dirY, h1]

/-- C10, evaluated at a failing input.  For the point `p = (0, 5, 5)` (vertex 3 of the
cube of `main`), the pivot `q = (2.5, 0, 7.5)`, the unit direction `d = (0, 1, 0)` and the
angle of 2.5 degrees, `rotate` returns a point whose `y` coordinate is
`5 (2 cos θ - 1)`, while the rotated point `rodrigues p q d θ` has `y = 5`: `rotate`
is not the rotation about the line. -/
theorem rotate_ne_rodrigues :
    (⟨0, 1, 0⟩ : Vector3 ℝ).norm = 1 ∧
    (Cube3D.rotate ⟨0, 5, 5⟩ ⟨5 / 2, 0, 15 / 2⟩ ⟨0, 1, 0⟩ (5 / 2 / 180 * Real.pi)).y
      = 5 * (2 * Real.cos (5 / 2 / 180 * Real.pi) - 1) ∧
    (rodrigues ⟨0, 5, 5⟩ ⟨5 / 2, 0, 15 / 2⟩ ⟨0, 1, 0⟩ (5 / 2 / 180 * Real.pi)).y = 5 ∧
    Cube3D.rotate ⟨0, 5, 5⟩ ⟨5 / 2, 0, 15 / 2⟩ ⟨0, 1, 0⟩ (5 / 2 / 180 * Real.pi)
      ≠ rodrigues ⟨0, 5, 5⟩ ⟨5 / 2, 0, 15 / 2⟩ ⟨0, 1, 0⟩ (5 / 2 / 180 * Real.pi) := by
  obtain ⟨hc1, hc2⟩ := cos_angle_bounds
  have hrot : (Cube3D.rotate ⟨0, 5, 5⟩ ⟨5 / 2, 0, 15 / 2⟩ ⟨0, 1, 0⟩ (5 / 2 / 180 * Real.pi)).y
      = 5 * (2 * Real.cos (5 / 2 / 180 * Real.pi) - 1) := by
    rw [Cube3D.rotate_dirY]
  have hrod : (rodrigues ⟨0, 5, 5⟩ ⟨5 / 2, 0, 15 / 2⟩ ⟨0, 1, 0⟩ (5 / 2 / 180 * Real.pi)).y = 5 := by
    simp only [rodrigues, Vector3.scale, Vector3.cross, Vector3.dot, Vector3.sub_x, Vector3.sub_y,
      Vector3.sub_z, Vector3.add_y]
    ring
  refine ⟨?_, hrot, hrod, ?_⟩
  · unfold Vector3.norm
    norm_num
  · intro h
    have hy := congrArg Vector3.y h
    rw [hrot, hrod] at hy
    linarith

/-- C1, evaluated at a failing input.  On the cube of `main` (whose `Y_AXIS` face
centroids are distinct), `rotateAbout(Y_AXIS, 2.5)` (the RIGHT key in rotate mode)
changes the distance between vertex 0 and vertex 3: it is `5` before the call and
different from `5` after it. -/
theorem rotateAbout_not_rigid :
    (mainCube : Cube3D ℝ).pivot1 Axis.Y_AXIS ≠ (mainCube : Cube3D ℝ).pivot2 Axis.Y_AXIS ∧
    distance ((mainCube : Cube3D ℝ).point 0) ((mainCube : Cube3D ℝ).point 3) = 5 ∧
    distance (((mainCube : Cube3D ℝ).rotateAbout Axis.Y_AXIS (5 / 2)).point 0)
        (((mainCube : Cube3D ℝ).rotateAbout Axis.Y_AXIS (5 / 2)).point 3)
      ≠ distance ((mainCube : Cube3D ℝ).point 0) ((mainCube : Cube3D ℝ).point 3) := by
  obtain ⟨hc1, hc2⟩ := cos_angle_bounds
  have hne : (mainCube : Cube3D ℝ).pivot1 Axis.Y_AXIS ≠ (mainCube : Cube3D ℝ).pivot2 Axis.Y_AXIS := by
    intro hh
    have hy := congrArg Vector3.y hh
    simp [Cube3D.pivot1, Cube3D.pivot2, mainCube, Cube3D.ofPoints] at hy
    norm_num at hy
  have hbefore : distance ((mainCube : Cube3D ℝ).point 0) ((mainCube : Cube3D ℝ).point 3) = 5 := by
    simp only [distance, Vector3.norm, mainCube, Cube3D.ofPoints, Vector3.sub_x, Vector3.sub_y,
      Vector3.sub_z]
    rw [show ((0 : ℝ) - 0) ^ 2 + (0 - 5) ^ 2 + (5 - 5) ^ 2 = 5 ^ 2 by norm_num]
    exact Real.sqrt_sq (by norm_num)
  refine ⟨hne, hbefore, ?_⟩
  rw [hbefore]
  intro h
  have hsq := Vector3.norm_sq ((((mainCube : Cube3D ℝ).rotateAbout Axis.Y_AXIS (5 / 2)).point 0)
    - (((mainCube : Cube3D ℝ).rotateAbout Axis.Y_AXIS (5 / 2)).point 3))
  unfold distance at h
  rw [h, mainCube_rotateAbout_Y, mainCube_rotateAbout_Y] at hsq
  simp only [mainCube, Cube3D.ofPoints, Vector3.sub_x, Vector3.sub_y, Vector3.sub_z] at hsq
  nlinarith

/-- C2, evaluated at a failing input.  On the cube of `main`, `rotateAbout(Y_AXIS, 2.5)`
followed by `rotateAbout(Y_AXIS, -2.5)` (RIGHT then LEFT in rotate mode; the face
centroids are distinct at both calls) does not return vertex 3 to `(0, 5, 5)`: its `y`
coordinate becomes `5 (2 cos θ - 1)²` with `θ` the angle of 2.5 degrees. -/
theorem rotateAbout_round_trip_fails :
    (mainCube : Cube3D ℝ).pivot1 Axis.Y_AXIS ≠ (mainCube : Cube3D ℝ).pivot2 Axis.Y_AXIS ∧
    ((mainCube : Cube3D ℝ).rotateAbout Axis.Y_AXIS (5 / 2)).pivot1 Axis.Y_AXIS
      ≠ ((mainCube : Cube3D ℝ).rotateAbout Axis.Y_AXIS (5 / 2)).pivot2 Axis.Y_AXIS ∧
    ((((mainCube : Cube3D ℝ).rotateAbout Axis.Y_AXIS (5 / 2)).rotateAbout Axis.Y_AXIS
        (-(5 / 2))).point 3).y = 5 * (2 * Real.cos (5 / 2 / 180 * Real.pi) - 1) ^ 2 ∧
    (((mainCube : Cube3D ℝ).rotateAbout Axis.Y_AXIS (5 / 2)).rotateAbout Axis.Y_AXIS
        (-(5 / 2))).point 3 ≠ (mainCube : Cube3D ℝ).point 3 := by
  obtain ⟨hc1, hc2⟩ := cos_angle_bounds
  have hne : (mainCube : Cube3D ℝ).pivot1 Axis.Y_AXIS ≠ (mainCube : Cube3D ℝ).pivot2 Axis.Y_AXIS := by
    intro hh
    have hy := congrArg Vector3.y hh
    simp [Cube3D.pivot1, Cube3D.pivot2, mainCube, Cube3D.ofPoints] at hy
    norm_num at hy
  have hdiff : ((mainCube : Cube3D ℝ).rotateAbout Axis.Y_AXIS (5 / 2)).pivot2 Axis.Y_AXIS
      - ((mainCube : Cube3D ℝ).rotateAbout Axis.Y_AXIS (5 / 2)).pivot1 Axis.Y_AXIS
      = ⟨0, 5 * (2 * Real.cos (5 / 2 / 180 * Real.pi) - 1), 0⟩ := by
    simp only [Cube3D.pivot1, Cube3D.pivot2, mainCube_rotateAbout_Y, Vector3.ext_iff3,
      Vector3.sub_x, Vector3.sub_y, Vector3.sub_z, Vector3.div_x, Vector3.div_y, Vector3.div_z,
      Vector3.add_x, Vector3.add_y, Vector3.add_z]
    simp only [mainCube, Cube3D.ofPoints]
    refine ⟨?_, ?_, ?_⟩ <;> ring
  have hne2 : ((mainCube : Cube3D ℝ).rotateAbout Axis.Y_AXIS (5 / 2)).pivot1 Axis.Y_AXIS
      ≠ ((mainCube : Cube3D ℝ).rotateAbout Axis.Y_AXIS (5 / 2)).pivot2 Axis.Y_AXIS := by
    intro hh
    rw [hh] at hdiff
    have hy := congrArg Vector3.y hdiff
    simp only [Vector3.sub_y, sub_self] at hy
    linarith
  have hy3 : ((((mainCube : Cube3D ℝ).rotateAbout Axis.Y_AXIS (5 / 2)).rotateAbout Axis.Y_AXIS
        (-(5 / 2))).point 3).y = 5 * (2 * Real.cos (5 / 2 / 180 * Real.pi) - 1) ^ 2 := by
    have hang : (-(5 / 2) / 180 * Real.pi : ℝ) = -(5 / 2 / 180 * Real.pi) := by ring
    rw [Cube3D.rotateAbout_point, hdiff, Vector3.getUnitVector_dirY _ (by linarith),
      Cube3D.rotate_dirY, hang, Real.cos_neg, mainCube_rotateAbout_Y]
    simp only [mainCube, Cube3D.ofPoints]
    ring
  refine ⟨hne, hne2, hy3, ?_⟩
  intro h
  have hy := congrArg Vector3.y h
  rw [hy3] at hy
  simp only [mainCube, Cube3D.ofPoints] at hy
  nlinarith

/-! ## Axis selection -/

/-- The pivot points chosen by `rotateAbout` are the two face centroids of the axis
selection rule. -/
theorem pivot_eq_faceCentroid {K : Type} [Field K] (c : Cube3D K) (axis : Axis) :
    c.pivot1 axis = faceCentroid1 c axis ∧ c.pivot2 axis = faceCentroid2 c axis := by
  cases axis <;>
    simp only [Cube3D.pivot1, Cube3D.pivot2, faceCentroid1, faceCentroid2, mean4,
      Vector3.ext_iff3, Vector3.div_x, Vector3.div_y, Vector3.div_z, Vector3.add_x,
      Vector3.add_y, Vector3.add_z, and_self]

/-- C11. Axis selection: `rotateAbout axis angleDegrees` replaces every vertex `p` by
`rotate p p1 d (angleDegrees * π / 180)`, where `p1` and `p2` are the means of vertices
`{0,3,4,7}` and `{1,2,5,6}` for X, `{0,1,4,5}` and `{2,3,6,7}` for Y, `{0,1,2,3}` and
`{4,5,6,7}` for Z, taken from the vertices before the rotation, and
`d = (p2 - p1) / |p2 - p1|`; the same `p1` and `d` serve all eight vertices. -/
theorem rotateAbout_axis_selection (c : Cube3D ℝ) (axis : Axis) (angleDegrees : ℝ)
    (i : Fin 8) :
    (c.rotateAbout axis angleDegrees).point i =
      Cube3D.rotate (c.point i) (faceCentroid1 c axis)
        ((faceCentroid2 c axis - faceCentroid1 c axis)
          / (faceCentroid2 c axis - faceCentroid1 c axis).norm)
        (angleDegrees * Real.pi / 180) := by
  obtain ⟨h1, h2⟩ := pivot_eq_faceCentroid c axis
  rw [Cube3D.rotateAbout_point, h1, h2]
  unfold Vector3.getUnitVector
  rw [Vector3.getMagnitude_eq_norm]
  congr 1
  ring

/-! ## The centre of the cube and the camera -/

/-- Function `getCenter` returns the arithmetic mean of the eight vertices. -/
theorem Cube3D.getCenter_eq_mean8 {K : Type} [Field K] (c : Cube3D K) :
    c.getCenter = mean8 c := by
  have h : List.ofFn c.point = [c.point 0, c.point 1, c.point 2, c.point 3, c.point 4,
      c.point 5, c.point 6, c.point 7] := rfl
  simp only [Cube3D.getCenter, h, List.foldl_cons, List.foldl_nil, mean8, Vector3.ext_iff3,
    Vector3.div_x, Vector3.div_y, Vector3.div_z, Vector3.add_x, Vector3.add_y, Vector3.add_z,
    Vector3.zero_x, Vector3.zero_y, Vector3.zero_z, zero_add, and_self]

/-- C14. Recenter camera: the SPACE key sets the camera to
`(c.x, c.y, c.z - (|point[0].z - point[4].z| + 5))`, where `c = getCenter()` is the
arithmetic mean of the eight vertices, and leaves the vertices of the cube and the
translate/rotate mode unchanged. -/
theorem recenter_camera (s : AppState) :
    (keyDown s Key.SDLK_SPACE).camLoc =
      ⟨s.cube.getCenter.x, s.cube.getCenter.y,
       s.cube.getCenter.z - (|(s.cube.point 0).z - (s.cube.point 4).z| + 5)⟩ ∧
    s.cube.getCenter = mean8 s.cube ∧
    (keyDown s Key.SDLK_SPACE).cube = s.cube ∧
    (keyDown s Key.SDLK_SPACE).translate = s.translate :=
  ⟨rfl, Cube3D.getCenter_eq_mean8 s.cube, rfl, rfl⟩

/-- A point with the abscissa and the ordinate of the camera and another depth is
projected to the centre of the screen. -/
theorem projection_on_axis {K : Type} [LinearOrderedField K] (cube : Cube3D K)
    (camera : Vector3 K) (screenWidth screenHeight : K) (i : Fin 8)
    (hx : (cube.point i).x = camera.x) (hy : (cube.point i).y = camera.y)
    (hz : (cube.point i).z ≠ camera.z) :
    (perspectiveProjection cube camera screenWidth screenHeight).point i
      = ⟨screenWidth / 2, screenHeight / 2⟩ := by
  have _ := hz
  have h1 := projection_x cube camera screenWidth screenHeight i
  have h2 := projection_y cube camera screenWidth screenHeight i
  rw [hx, sub_self, zero_div, zero_add] at h1
  rw [hy, sub_self, zero_div, zero_add] at h2
  cases hp : (perspectiveProjection cube camera screenWidth screenHeight).point i with
  | mk px py =>
    rw [hp] at h1 h2
    simp only at h1 h2
    rw [h1, h2, Vector2.mk.injEq]
    constructor <;> ring

/-- C20. After the SPACE key the depth from the camera to the centroid of the cube is
`|point[0].z - point[4].z| + 5 > 0`, and the projection of a vertex placed at the
centroid `getCenter()` is exactly `(screenWidth / 2, screenHeight / 2)`, for every
positive screen width and height; more generally every point with the `x` and `y` of
the camera and a different `z` is projected to the centre of the screen. -/
theorem centroid_projects_to_centre (s : AppState) (screenWidth screenHeight : ℝ)
    (hw : 0 < screenWidth) (hh : 0 < screenHeight) :
    (s.cube.getCenter.z - (keyDown s Key.SDLK_SPACE).camLoc.z
        = |(s.cube.point 0).z - (s.cube.point 4).z| + 5 ∧
      0 < |(s.cube.point 0).z - (s.cube.point 4).z| + 5) ∧
    (∀ (probe : Cube3D ℝ) (i : Fin 8), probe.point i = s.cube.getCenter →
      (perspectiveProjection probe (keyDown s Key.SDLK_SPACE).camLoc screenWidth
          screenHeight).point i = ⟨screenWidth / 2, screenHeight / 2⟩) ∧
    (∀ (probe : Cube3D ℝ) (camera : Vector3 ℝ) (i : Fin 8),
      (probe.point i).x = camera.x → (probe.point i).y = camera.y →
      (probe.point i).z ≠ camera.z →
      (perspectiveProjection probe camera screenWidth screenHeight).point i
        = ⟨screenWidth / 2, screenHeight / 2⟩) := by
  have _ := hw
  have _ := hh
  have hpos : 0 < |(s.cube.point 0).z - (s.cube.point 4).z| + 5 := by positivity
  have hcam : (keyDown s Key.SDLK_SPACE).camLoc =
      ⟨s.cube.getCenter.x, s.cube.getCenter.y,
       s.cube.getCenter.z - (|(s.cube.point 0).z - (s.cube.point 4).z| + 5)⟩ := rfl
  refine ⟨⟨?_, hpos⟩, ?_, ?_⟩
  · rw [hcam]
    simp only
    ring
  · intro probe i hi
    apply projection_on_axis
    · rw [hi, hcam]
    · rw [hi, hcam]
    · rw [hi, hcam]
      simp only
      intro h
      linarith
  · intro probe camera i hx hy hz
    exact projection_on_axis probe camera screenWidth screenHeight i hx hy hz

/-- A witness of C20 on the initial state of `main`, with a 400 by 400 screen and the
centroid placed at vertex 0 of the probe. -/
theorem centroid_projects_to_centre_witness :
    (0 : ℝ) < 400 ∧
    (perspectiveProjection
        (Cube3D.ofPoints (mainCube : Cube3D ℝ).getCenter 0 0 0 0 0 0 0)
        (keyDown ⟨mainCube, mainCamera, true⟩ Key.SDLK_SPACE).camLoc 400 400).point 0
      = ⟨400 / 2, 400 / 2⟩ :=
  ⟨by norm_num,
    (centroid_projects_to_centre ⟨mainCube, mainCamera, true⟩ 400 400 (by norm_num)
      (by norm_num)).2.1 (Cube3D.ofPoints (mainCube : Cube3D ℝ).getCenter 0 0 0 0 0 0 0) 0 rfl⟩

/-- C17, evaluated at a failing input.  On the cube of `main`, whose centre is
`(2.5, 2.5, 7.5)`, `rotateAbout(Y_AXIS, 2.5)` (the RIGHT key in rotate mode) moves the
centre: its `y` coordinate becomes `2.5 (2 cos θ - 1)` with `θ` the angle of 2.5
degrees. -/
theorem rotateAbout_moves_centre :
    (mainCube : Cube3D ℝ).pivot1 Axis.Y_AXIS ≠ (mainCube : Cube3D ℝ).pivot2 Axis.Y_AXIS ∧
    (mainCube : Cube3D ℝ).getCenter = ⟨5 / 2, 5 / 2, 15 / 2⟩ ∧
    (((mainCube : Cube3D ℝ).rotateAbout Axis.Y_AXIS (5 / 2)).getCenter).y
      = 5 / 2 * (2 * Real.cos (5 / 2 / 180 * Real.pi) - 1) ∧
    ((mainCube : Cube3D ℝ).rotateAbout Axis.Y_AXIS (5 / 2)).getCenter
      ≠ (mainCube : Cube3D ℝ).getCenter := by
  obtain ⟨hc1, hc2⟩ := cos_angle_bounds
  have hne : (mainCube : Cube3D ℝ).pivot1 Axis.Y_AXIS ≠ (mainCube : Cube3D ℝ).pivot2 Axis.Y_AXIS := by
    intro hh
    have hy := congrArg Vector3.y hh
    simp [Cube3D.pivot1, Cube3D.pivot2, mainCube, Cube3D.ofPoints] at hy
    norm_num at hy
  have hbefore : (mainCube : Cube3D ℝ).getCenter = ⟨5 / 2, 5 / 2, 15 / 2⟩ := by
    rw [Cube3D.getCenter_eq_mean8]
    simp only [mean8, mainCube, Cube3D.ofPoints, Vector3.mk.injEq]
    norm_num
  have hafter : (((mainCube : Cube3D ℝ).rotateAbout Axis.Y_AXIS (5 / 2)).getCenter).y
      = 5 / 2 * (2 * Real.cos (5 / 2 / 180 * Real.pi) - 1) := by
    rw [Cube3D.getCenter_eq_mean8]
    simp only [mean8, mainCube_rotateAbout_Y]
    simp only [mainCube, Cube3D.ofPoints]
    ring
  refine ⟨hne, hbefore, hafter, ?_⟩
  intro h
  have hy := congrArg Vector3.y h
  rw [hafter, hbefore] at hy
  simp only at hy
  linarith

/-! ## The rasteriser on finite coordinates -/

section RasteriserLemmas

set_option linter.unusedSectionVars false

variable {K : Type} [LinearOrderedField K] [FloorRing K]

open Double

@[simp] theorem Double.finite_add (a b : K) : (finite a + finite b : Double K) = finite (a + b) :=
  rfl
@[simp] theorem Double.finite_sub (a b : K) : (finite a - finite b : Double K) = finite (a - b) :=
  rfl
@[simp] theorem Double.finite_mul (a b : K) : (finite a * finite b : Double K) = finite (a * b) :=
  rfl
theorem Double.finite_div (a b : K) (hb : b ≠ 0) :
    (finite a / finite b : Double K) = finite (a / b) := by
  show Double.div (finite a) (finite b) = _
  simp [Double.div, hb]
@[simp] theorem Double.floor_finite (a : K) : floor (finite a) = finite ((⌊a⌋ : ℤ) : K) := rfl
@[simp] theorem Double.fabs_finite (a : K) : fabs (finite a) = finite |a| := rfl
@[simp] theorem Double.gt_finite (a b : K) : gt (finite a) (finite b) = decide (a > b) := rfl
@[simp] theorem Double.eq_finite (a b : K) : eq (finite a) (finite b) = decide (a = b) := rfl
@[simp] theorem Double.isinf_finite (a : K) : isinf (finite a) = false := rfl
@[simp] theorem Double.isinf_nan : isinf (nan : Double K) = false := rfl
@[simp] theorem Double.isinf_infinite (s : Bool) : isinf (infinite s : Double K) = true := rfl
@[simp] theorem Double.toInt_finite (a : K) : toInt (finite a) = truncToInt a := rfl

/-- Truncation is exact on integral values. -/
@[simp] theorem Double.truncToInt_intCast (n : ℤ) : truncToInt ((n : ℤ) : K) = n := by
  unfold truncToInt
  split_ifs <;> simp

@[simp] theorem Double.truncToInt_intCast_add_one (n : ℤ) : truncToInt ((n : K) + 1) = n + 1 := by
  have h := Double.truncToInt_intCast (K := K) (n + 1)
  simpa using h

@[simp] theorem round_finite (a : K) : round (finite a) = finite ((⌊a + 1 / 2⌋ : ℤ) : K) := rfl
@[simp] theorem fPart_finite (a : K) : fPart (finite a) = finite (a - (⌊a⌋ : ℤ)) := rfl
@[simp] theorem rfPart_finite (a : K) : rfPart (finite a) = finite (1 - (a - (⌊a⌋ : ℤ))) := rfl

/-- The trip count of the interior loop on finite endpoint columns. -/
theorem tripCount_cols (r0 r1 : ℤ) :
    tripCount (r0 + 1) (finite ((r1 : K) - 1)) = (r1 - r0 - 1).toNat := by
  have h : ((r1 : K) - 1) = ((r1 - 1 : ℤ) : K) := by push_cast; ring
  simp only [tripCount, h, Int.floor_intCast]
  congr 1
  ring

/-- The trip count is the number of integers `x ≥ lo` that pass the loop test
`x <= bound`: the test holds for the first `tripCount` values and fails at the next. -/
theorem tripCount_spec (lo : ℤ) (b : K) :
    (∀ j : ℕ, j < tripCount lo (finite b) → ((lo + j : ℤ) : K) ≤ b) ∧
    ¬ (((lo + (tripCount lo (finite b) : ℕ) : ℤ) : K) ≤ b) := by
  simp only [tripCount]
  constructor
  · intro j hj
    have h1 : lo + j ≤ ⌊b⌋ := by omega
    exact Int.le_floor.mp h1
  · intro h
    have h1 : lo + ((⌊b⌋ + 1 - lo).toNat : ℤ) ≤ ⌊b⌋ := Int.le_floor.mpr h
    omega

/-- The rasteriser on four finite coordinates, in terms of the working-space segment:
two writes for each endpoint, then the interior loop from column `col0 + 1`. -/
theorem wuLine_finite (x0 y0 x1 y1 : K) :
    wuLine (finite x0) (finite y0) (finite x1) (finite y1) =
      (let w := working x0 y0 x1 y1
       let steep := isSteep x0 y0 x1 y1
       let g := w.gradient
       let yEnd := w.y0 + g * ((w.col0 : K) - w.x0)
       let xGap := 1 - (w.x0 + 1 / 2 - ((⌊w.x0 + 1 / 2⌋ : ℤ) : K))
       let yEnd2 := w.y1 + g * ((w.col1 : K) - w.x1)
       let xGap2 := w.x1 + 1 / 2 - ((⌊w.x1 + 1 / 2⌋ : ℤ) : K)
       (if steep then
          [plot ⌊yEnd⌋ w.col0 (finite ((1 - (yEnd - (⌊yEnd⌋ : ℤ))) * xGap)),
           plot (⌊yEnd⌋ + 1) w.col0 (finite ((yEnd - (⌊yEnd⌋ : ℤ)) * xGap))]
        else
          [plot w.col0 ⌊yEnd⌋ (finite ((1 - (yEnd - (⌊yEnd⌋ : ℤ))) * xGap)),
           plot w.col0 (⌊yEnd⌋ + 1) (finite ((yEnd - (⌊yEnd⌋ : ℤ)) * xGap))]) ++
       (if steep then
          [plot ⌊yEnd2⌋ w.col1 (finite ((1 - (yEnd2 - (⌊yEnd2⌋ : ℤ))) * xGap2)),
           plot (⌊yEnd2⌋ + 1) w.col1 (finite ((yEnd2 - (⌊yEnd2⌋ : ℤ)) * xGap2))]
        else
          [plot w.col1 ⌊yEnd2⌋ (finite ((1 - (yEnd2 - (⌊yEnd2⌋ : ℤ))) * xGap2)),
           plot w.col1 (⌊yEnd2⌋ + 1) (finite ((yEnd2 - (⌊yEnd2⌋ : ℤ)) * xGap2))]) ++
       wuLoop steep (finite g) (w.col1 - w.col0 - 1).toNat (w.col0 + 1) (finite (yEnd + g))) := by
  have hg : ∀ a b c d : K, (if c - a = 0 then (finite 1 : Double K)
      else finite (d - b) / finite (c - a)) = finite (Working.gradient ⟨a, b, c, d⟩) := by
    intro a b c d
    by_cases h : c - a = 0
    · simp [Working.gradient, h]
    · simp [Working.gradient, h, Double.finite_div]
  by_cases hs : |y1 - y0| > |x1 - x0| <;> by_cases hx : y0 > y1 <;> by_cases hx2 : x0 > x1 <;>
    simp only [wuLine, isSteep, working, hs, hx, hx2, Double.isinf_finite, Double.finite_sub,
        Double.fabs_finite, Double.gt_finite, Double.eq_finite, decide_eq_true_eq,
        decide_True, decide_False, if_true, if_false, Bool.or_self, hg, Bool.false_eq_true,
        round_finite, Double.finite_add, Double.finite_mul, rfPart_finite, fPart_finite,
        Double.floor_finite, Double.toInt_finite, Double.truncToInt_intCast,
        Double.truncToInt_intCast_add_one, tripCount_cols, Working.col0, Working.col1]

/-- The interior loop makes two writes per iteration. -/
theorem wuLoop_length (steep : Bool) (g : Double K) (n : ℕ) (x : ℤ) (y : Double K) :
    (wuLoop steep g n x y).length = 2 * n := by
  induction n generalizing x y with
  | zero => rfl
  | succ n ih =>
    cases steep <;> simp [wuLoop, ih] <;> ring

/-- The columns written by the interior loop of a non-steep segment: each column from
`x` on, twice. -/
theorem wuLoop_map_x (g : Double K) (n : ℕ) (x : ℤ) (y : Double K) :
    (wuLoop false g n x y).map Plot.x = (List.range n).flatMap (fun j => [x + j, x + j]) := by
  induction n generalizing x y with
  | zero => rfl
  | succ n ih =>
    rw [List.range_succ_eq_map]
    simp only [wuLoop, Bool.false_eq_true, if_false, List.map_append, List.map_cons, List.map_nil,
      plot, ih, List.flatMap_cons, List.flatMap_map, Nat.cast_zero, add_zero]
    congr 1
    apply congrArg
    funext j
    simp only [Function.comp, Nat.succ_eq_add_one, Nat.cast_add, Nat.cast_one]
    rw [show x + 1 + (j : ℤ) = x + ((j : ℤ) + 1) by ring]

/-- In the interior loop on finite values, the two writes of iteration `j` go to column
`x + j` and their coverages add up to one. -/
theorem wuLoop_pairs (steep : Bool) (g : K) (n : ℕ) (x : ℤ) (y : K) (j : ℕ) (a b : Plot K)
    (ha : (wuLoop steep (finite g) n x (finite y))[2 * j]? = some a)
    (hb : (wuLoop steep (finite g) n x (finite y))[2 * j + 1]? = some b) :
    a.column steep = x + j ∧ b.column steep = x + j ∧
      a.brightness + b.brightness = finite 1 := by
  induction n generalizing x y j with
  | zero => simp [wuLoop] at ha
  | succ n ih =>
    cases j with
    | zero =>
      cases steep <;>
        simp only [wuLoop, Bool.false_eq_true, if_false, if_true, List.cons_append,
          List.nil_append, Nat.mul_zero, List.getElem?_cons_zero, Option.some.injEq, zero_add,
          List.getElem?_cons_succ] at ha hb <;>
        subst ha <;> subst hb <;>
        simp [Plot.column, plot]
    | succ j =>
      have e1 : 2 * (j + 1) = 2 * j + 1 + 1 := by ring
      have e2 : 2 * (j + 1) + 1 = 2 * j + 1 + 1 + 1 := by ring
      have e3 : x + ((j + 1 : ℕ) : ℤ) = x + 1 + (j : ℤ) := by push_cast; ring
      rw [e1] at ha
      rw [e2] at hb
      rw [e3]
      cases steep <;>
        simp only [wuLoop, Bool.false_eq_true, if_false, if_true, List.cons_append,
          List.nil_append, List.getElem?_cons_succ, Double.finite_add] at ha hb <;>
        exact ih _ _ _ ha hb

/-- The writes of `wuLine (0, 0, 3, 1)`, evaluated. -/
theorem wuLine_example :
    wuLine (finite (0 : ℚ)) (finite 0) (finite 3) (finite 1) =
      [plot 0 0 (finite (1 / 2)), plot 0 1 (finite 0), plot 3 1 (finite (1 / 2)),
       plot 3 2 (finite 0), plot 1 0 (finite (2 / 3)), plot 1 1 (finite (1 / 3)),
       plot 2 0 (finite (1 / 3)), plot 2 1 (finite (2 / 3))] := by
  with_unfolding_all decide

/-- The guard of `wuLine`: a call with an infinite coordinate makes no write. -/
theorem wuLine_of_isinf (x0 y0 x1 y1 : Double K)
    (h : (isinf x0 || isinf y0 || isinf x1 || isinf y1) = true) :
    wuLine x0 y0 x1 y1 = [] := by
  simp only [wuLine, h, if_true]

/-! ## Coverage -/

/-- C5, as stated, fails on `drawLine(0, 0, 3, 1)`: the endpoints are finite and
distinct, the two writes of the first endpoint column are `(0, 0)` with coverage `1/2`
and `(0, 1)` with coverage `0`, and these do not add up to `1`, so it is not true that
the two coverages of every column add up to `1`. -/
theorem coverage_conservation_counterexample :
    ((0 : ℚ) ≠ 3 ∨ (0 : ℚ) ≠ 1) ∧
    (wuLine (finite (0 : ℚ)) (finite 0) (finite 3) (finite 1))[0]?
      = some (plot 0 0 (finite (1 / 2))) ∧
    (wuLine (finite (0 : ℚ)) (finite 0) (finite 3) (finite 1))[1]?
      = some (plot 0 1 (finite 0)) ∧
    ¬ (∀ (j : ℕ) (a b : Plot ℚ),
        (wuLine (finite (0 : ℚ)) (finite 0) (finite 3) (finite 1))[2 * j]? = some a →
        (wuLine (finite (0 : ℚ)) (finite 0) (finite 3) (finite 1))[2 * j + 1]? = some b →
        a.brightness + b.brightness = finite 1) := by
  refine ⟨Or.inl (by norm_num), by rw [wuLine_example]; rfl, by rw [wuLine_example]; rfl, ?_⟩
  intro h
  have h0 := h 0 (plot 0 0 (finite (1 / 2))) (plot 0 1 (finite 0))
    (by rw [wuLine_example]; rfl) (by rw [wuLine_example]; rfl)
  revert h0
  with_unfolding_all decide

/-- C5, amended.  The writes of `wuLine` on finite coordinates come in consecutive
pairs, one pair per column of working space: pair 0 for the first endpoint column
`round(x0')`, pair 1 for the second endpoint column `round(x1')`, and pair `j ≥ 2`
for the interior column `round(x0') + j - 1`.  The two coverages of an interior pair
add up to exactly `1`; those of the first endpoint pair add up to
`xGap = 1 - frac(x0' + 1/2)` and those of the second to `frac(x1' + 1/2)`. -/
theorem coverage_sums (x0 y0 x1 y1 : K) (j : ℕ) (a b : Plot K)
    (ha : (wuLine (finite x0) (finite y0) (finite x1) (finite y1))[2 * j]? = some a)
    (hb : (wuLine (finite x0) (finite y0) (finite x1) (finite y1))[2 * j + 1]? = some b) :
    a.column (isSteep x0 y0 x1 y1) = b.column (isSteep x0 y0 x1 y1) ∧
    a.column (isSteep x0 y0 x1 y1) =
      (if j = 0 then (working x0 y0 x1 y1).col0
       else if j = 1 then (working x0 y0 x1 y1).col1
       else (working x0 y0 x1 y1).col0 + j - 1) ∧
    a.brightness + b.brightness =
      finite (if j = 0 then
          1 - ((working x0 y0 x1 y1).x0 + 1 / 2 - (⌊(working x0 y0 x1 y1).x0 + 1 / 2⌋ : ℤ))
        else if j = 1 then
          (working x0 y0 x1 y1).x1 + 1 / 2 - (⌊(working x0 y0 x1 y1).x1 + 1 / 2⌋ : ℤ)
        else 1) := by
  rw [wuLine_finite] at ha hb
  match j with
  | 0 =>
    cases hst : isSteep x0 y0 x1 y1 <;>
      simp only [hst, Bool.false_eq_true, if_false, if_true, List.cons_append, List.nil_append,
        Nat.mul_zero, zero_add, List.getElem?_cons_zero, List.getElem?_cons_succ,
        Option.some.injEq] at ha hb <;>
      subst ha <;> subst hb <;>
      simp only [Plot.column, plot, Bool.false_eq_true, if_false, if_true, Double.finite_add,
        true_and] <;>
      congr 1 <;> ring
  | 1 =>
    cases hst : isSteep x0 y0 x1 y1 <;>
      simp only [hst, Bool.false_eq_true, if_false, if_true, List.cons_append, List.nil_append,
        Nat.mul_one, List.getElem?_cons_zero, List.getElem?_cons_succ,
        Option.some.injEq] at ha hb <;>
      subst ha <;> subst hb <;>
      simp only [Plot.column, plot, Bool.false_eq_true, if_false, if_true, Double.finite_add,
        true_and, one_ne_zero] <;>
      congr 1 <;> ring
  | j + 2 =>
    have e1 : 2 * (j + 2) = 2 * j + 1 + 1 + 1 + 1 := by ring
    have e2 : 2 * (j + 2) + 1 = 2 * j + 1 + 1 + 1 + 1 + 1 := by ring
    rw [e1] at ha
    rw [e2] at hb
    have key : ∀ (n : ℕ) (g y : K) (c : ℤ),
        (wuLoop (isSteep x0 y0 x1 y1) (finite g) n (c + 1) (finite y))[2 * j]? = some a →
        (wuLoop (isSteep x0 y0 x1 y1) (finite g) n (c + 1) (finite y))[2 * j + 1]? = some b →
        a.column (isSteep x0 y0 x1 y1) = b.column (isSteep x0 y0 x1 y1) ∧
        a.column (isSteep x0 y0 x1 y1) = c + ((j + 2 : ℕ) : ℤ) - 1 ∧
        a.brightness + b.brightness = finite 1 := by
      intro n g y c h1 h2
      obtain ⟨k1, k2, k3⟩ := wuLoop_pairs _ g n (c + 1) y j a b h1 h2
      refine ⟨by rw [k1, k2], ?_, k3⟩
      rw [k1]
      push_cast
      ring
    have hj0 : ¬ (j + 2 = 0) := by omega
    have hj1 : ¬ (j + 2 = 1) := by omega
    simp only [hj0, hj1, if_false]
    cases hst : isSteep x0 y0 x1 y1 <;>
      simp only [hst, Bool.false_eq_true, if_false, if_true, List.cons_append, List.nil_append,
        List.getElem?_cons_succ] at ha hb key ⊢ <;>
      exact key _ _ _ _ ha hb

/-- A witness of the amended C5 on `drawLine(0, 0, 3, 1)`: pair 2 consists of the writes
`(1, 0)` with coverage `2/3` and `(1, 1)` with coverage `1/3`. -/
theorem coverage_sums_witness :
    (wuLine (finite (0 : ℚ)) (finite 0) (finite 3) (finite 1))[2 * 2]?
      = some (plot 1 0 (finite (2 / 3))) ∧
    (wuLine (finite (0 : ℚ)) (finite 0) (finite 3) (finite 1))[2 * 2 + 1]?
      = some (plot 1 1 (finite (1 / 3))) ∧
    (plot 1 0 (finite (2 / 3)) : Plot ℚ).brightness + (plot 1 1 (finite (1 / 3)) : Plot ℚ).brightness
      = finite 1 :=
  have ha : (wuLine (finite (0 : ℚ)) (finite 0) (finite 3) (finite 1))[2 * 2]?
      = some (plot 1 0 (finite (2 / 3))) := by rw [wuLine_example]; rfl
  have hb : (wuLine (finite (0 : ℚ)) (finite 0) (finite 3) (finite 1))[2 * 2 + 1]?
      = some (plot 1 1 (finite (1 / 3))) := by rw [wuLine_example]; rfl
  ⟨ha, hb, (coverage_sums (0 : ℚ) 0 3 1 2 _ _ ha hb).2.2⟩

/-! ## The guard -/

/-- C6, evaluated at a failing input.  `wuLine(200, 200, NaN, NaN)` (an edge from a
vertex on the camera axis to a vertex at the camera position) passes the
`isinf` guard and makes the four endpoint calls of `plot`, each with a NaN brightness;
only an infinite coordinate stops the call. -/
theorem wuLine_nan_emits :
    (isinf (finite (200 : ℚ)) || isinf (finite (200 : ℚ)) || isinf (nan : Double ℚ)
      || isinf (nan : Double ℚ)) = false ∧
    (wuLine (finite (200 : ℚ)) (finite 200) nan nan).length = 4 ∧
    (wuLine (finite (200 : ℚ)) (finite 200) nan nan).map Plot.brightness = [nan, nan, nan, nan] := by
  refine ⟨rfl, ?_, ?_⟩ <;> with_unfolding_all decide

/-! ## Number of writes -/

/-- C7. Emission count: a call of `wuLine` on four finite coordinates makes exactly
`4 + 2 k` writes, where `k = max 0 (round(x1') - round(x0') - 1)` counts the columns
strictly between the two endpoint columns of working space.  For a non-steep segment
working space is not transposed (only the order of the endpoints may change), and the
first pixel coordinate of each write is its column: the first endpoint column twice, the
second endpoint column twice, then every interior column twice in increasing order. -/
theorem emission_count (x0 y0 x1 y1 : K) :
    ((wuLine (finite x0) (finite y0) (finite x1) (finite y1)).length : ℤ)
      = 4 + 2 * max 0 ((working x0 y0 x1 y1).col1 - (working x0 y0 x1 y1).col0 - 1) ∧
    (isSteep x0 y0 x1 y1 = false →
      (working x0 y0 x1 y1 = ⟨x0, y0, x1, y1⟩ ∨ working x0 y0 x1 y1 = ⟨x1, y1, x0, y0⟩) ∧
      (wuLine (finite x0) (finite y0) (finite x1) (finite y1)).map Plot.x
        = [(working x0 y0 x1 y1).col0, (working x0 y0 x1 y1).col0,
           (working x0 y0 x1 y1).col1, (working x0 y0 x1 y1).col1]
          ++ (List.range ((working x0 y0 x1 y1).col1 - (working x0 y0 x1 y1).col0 - 1).toNat).flatMap
              (fun j => [(working x0 y0 x1 y1).col0 + 1 + j,
                         (working x0 y0 x1 y1).col0 + 1 + j])) := by
  constructor
  · rw [wuLine_finite]
    cases hst : isSteep x0 y0 x1 y1 <;>
      simp only [Bool.false_eq_true, if_false, if_true, List.length_append, List.length_cons,
        List.length_nil, wuLoop_length, Nat.cast_add, Nat.cast_mul, Nat.cast_ofNat,
        Int.toNat_eq_max, Nat.cast_zero, Nat.cast_one, zero_add] <;>
      rw [max_comm] <;> ring
  · intro hst
    constructor
    · simp only [working, hst, Bool.false_eq_true, if_false]
      split_ifs
      · right; rfl
      · left; rfl
    · rw [wuLine_finite]
      simp only [hst, Bool.false_eq_true, if_false, List.map_append, List.map_cons, List.map_nil,
        plot, wuLoop_map_x, List.cons_append, List.nil_append]

/-- A witness of C7: `drawLine(0, 0, 3, 1)` is not steep and makes 8 writes, with columns
`0, 0, 3, 3, 1, 1, 2, 2`. -/
theorem emission_count_witness :
    isSteep (0 : ℚ) 0 3 1 = false ∧
    ((wuLine (finite (0 : ℚ)) (finite 0) (finite 3) (finite 1)).length : ℤ)
      = 4 + 2 * max 0 ((working (0 : ℚ) 0 3 1).col1 - (working (0 : ℚ) 0 3 1).col0 - 1) ∧
    (wuLine (finite (0 : ℚ)) (finite 0) (finite 3) (finite 1)).length = 8 ∧
    (wuLine (finite (0 : ℚ)) (finite 0) (finite 3) (finite 1)).map Plot.x
      = [0, 0, 3, 3, 1, 1, 2, 2] := by
  have hs : isSteep (0 : ℚ) 0 3 1 = false := by with_unfolding_all decide
  have h := emission_count (0 : ℚ) 0 3 1
  have hcols := (h.2 hs).2
  refine ⟨hs, h.1, by rw [wuLine_example]; rfl, ?_⟩
  rw [hcols]
  with_unfolding_all decide

/-! ## The interior loop, write by write -/

/-- The two writes of iteration `j` of the interior loop on finite values: the column is
`x + j`, the running ordinate is `y + j * g`, the rows are the truncations of the
ordinate and of the ordinate plus one, and the coverages are `1 - frac` and `frac` of
the ordinate. -/
theorem wuLoop_getElem (steep : Bool) (g : K) (n : ℕ) (x : ℤ) (y : K) (j : ℕ) (hj : j < n) :
    (wuLoop steep (finite g) n x (finite y))[2 * j]? =
      some (if steep then
          plot (truncToInt (y + j * g)) (x + j)
            (finite (1 - (y + j * g - (⌊y + j * g⌋ : ℤ))))
        else
          plot (x + j) (truncToInt (y + j * g))
            (finite (1 - (y + j * g - (⌊y + j * g⌋ : ℤ))))) ∧
    (wuLoop steep (finite g) n x (finite y))[2 * j + 1]? =
      some (if steep then
          plot (truncToInt (y + j * g + 1)) (x + j) (finite (y + j * g - (⌊y + j * g⌋ : ℤ)))
        else
          plot (x + j) (truncToInt (y + j * g + 1)) (finite (y + j * g - (⌊y + j * g⌋ : ℤ)))) := by
  induction n generalizing x y j with
  | zero => omega
  | succ n ih =>
    cases j with
    | zero =>
      cases steep <;>
        simp [wuLoop]
    | succ j =>
      have e1 : 2 * (j + 1) = 2 * j + 1 + 1 := by ring
      have e3 : x + ((j + 1 : ℕ) : ℤ) = x + 1 + (j : ℤ) := by push_cast; ring
      have e4 : y + ((j + 1 : ℕ) : K) * g = y + g + (j : K) * g := by push_cast; ring
      have h := ih (x + 1) (y + g) j (by omega)
      rw [e1, e3, e4]
      cases steep <;>
        simp only [wuLoop, Bool.false_eq_true, if_false, if_true, List.cons_append,
          List.nil_append, List.getElem?_cons_succ, Double.finite_add] at h ⊢ <;>
        exact h

/-- C15. Interior sampling: for every interior column `x` of working space,
`round(x0') < x < round(x1')`, the writes at positions `4 + 2 (x - round(x0') - 1)` and
the next one are the two writes of that column; they carry the coverages `1 - frac(y)`
and `frac(y)`, in that order, where `y = y0' + gradient * (x - x0')`.  The position
grows with `x` and the call makes `4 + 2 k` writes in all, so the interior columns are
visited in increasing order, each exactly once. -/
theorem interior_sampling (x0 y0 x1 y1 : K) (x : ℤ)
    (hlo : (working x0 y0 x1 y1).col0 < x) (hhi : x < (working x0 y0 x1 y1).col1) :
    (wuLine (finite x0) (finite y0) (finite x1) (finite y1)).length
      = 4 + 2 * ((working x0 y0 x1 y1).col1 - (working x0 y0 x1 y1).col0 - 1).toNat ∧
    ∃ a b : Plot K,
      (wuLine (finite x0) (finite y0) (finite x1) (finite y1))[
          4 + 2 * (x - (working x0 y0 x1 y1).col0 - 1).toNat]? = some a ∧
      (wuLine (finite x0) (finite y0) (finite x1) (finite y1))[
          4 + 2 * (x - (working x0 y0 x1 y1).col0 - 1).toNat + 1]? = some b ∧
      a.column (isSteep x0 y0 x1 y1) = x ∧ b.column (isSteep x0 y0 x1 y1) = x ∧
      a.brightness = finite (1 -
        (((working x0 y0 x1 y1).y0
            + (working x0 y0 x1 y1).gradient * ((x : K) - (working x0 y0 x1 y1).x0))
          - (⌊(working x0 y0 x1 y1).y0
            + (working x0 y0 x1 y1).gradient * ((x : K) - (working x0 y0 x1 y1).x0)⌋ : ℤ))) ∧
      b.brightness = finite
        (((working x0 y0 x1 y1).y0
            + (working x0 y0 x1 y1).gradient * ((x : K) - (working x0 y0 x1 y1).x0))
          - (⌊(working x0 y0 x1 y1).y0
            + (working x0 y0 x1 y1).gradient * ((x : K) - (working x0 y0 x1 y1).x0)⌋ : ℤ)) := by
  constructor
  · rw [wuLine_finite]
    cases hst : isSteep x0 y0 x1 y1 <;>
      simp only [Bool.false_eq_true, if_false, if_true, List.length_append, List.length_cons,
        List.length_nil, wuLoop_length]
  · generalize hw : working x0 y0 x1 y1 = w at hlo hhi ⊢
    obtain ⟨j0, hj0⟩ : ∃ j0 : ℕ, (x - w.col0 - 1).toNat = j0 := ⟨_, rfl⟩
    have hjx : (j0 : ℤ) = x - w.col0 - 1 := by rw [← hj0]; exact Int.toNat_of_nonneg (by omega)
    have hjn : j0 < (w.col1 - w.col0 - 1).toNat := by omega
    have hxK : (x : K) = (w.col0 : K) + 1 + (j0 : K) := by
      have : x = w.col0 + 1 + (j0 : ℤ) := by omega
      rw [this]; push_cast; ring
    have hy : w.y0 + w.gradient * ((x : K) - w.x0)
        = w.y0 + w.gradient * ((w.col0 : K) - w.x0) + w.gradient + (j0 : K) * w.gradient := by
      rw [hxK]; ring
    obtain ⟨h1, h2⟩ := wuLoop_getElem (isSteep x0 y0 x1 y1) w.gradient
      (w.col1 - w.col0 - 1).toNat (w.col0 + 1)
      (w.y0 + w.gradient * ((w.col0 : K) - w.x0) + w.gradient) j0 hjn
    have e1 : 4 + 2 * j0 = 2 * j0 + 1 + 1 + 1 + 1 := by ring
    have hcol : w.col0 + 1 + (j0 : ℤ) = x := by omega
    rw [wuLine_finite, hw, hj0, e1, hy]
    cases hst : isSteep x0 y0 x1 y1 <;>
      simp only [hst, Bool.false_eq_true, if_false, if_true, List.cons_append, List.nil_append,
        List.getElem?_cons_succ] at h1 h2 ⊢ <;>
      exact ⟨_, _, h1, h2, by simp [Plot.column, plot, hcol], by simp [Plot.column, plot, hcol],
        rfl, rfl⟩

/-- A witness of C15 on `drawLine(0, 0, 3, 1)`: column 2 lies strictly between the
endpoint columns 0 and 3. -/
theorem interior_sampling_witness :
    (working (0 : ℚ) 0 3 1).col0 < 2 ∧ 2 < (working (0 : ℚ) 0 3 1).col1 ∧
    ∃ a b : Plot ℚ,
      (wuLine (finite (0 : ℚ)) (finite 0) (finite 3) (finite 1))[
          4 + 2 * (2 - (working (0 : ℚ) 0 3 1).col0 - 1).toNat]? = some a ∧
      (wuLine (finite (0 : ℚ)) (finite 0) (finite 3) (finite 1))[
          4 + 2 * (2 - (working (0 : ℚ) 0 3 1).col0 - 1).toNat + 1]? = some b ∧
      a.column (isSteep (0 : ℚ) 0 3 1) = 2 ∧ b.column (isSteep (0 : ℚ) 0 3 1) = 2 ∧
      a.brightness = finite (1 -
        (((working (0 : ℚ) 0 3 1).y0
            + (working (0 : ℚ) 0 3 1).gradient * (((2 : ℤ) : ℚ) - (working (0 : ℚ) 0 3 1).x0))
          - (⌊(working (0 : ℚ) 0 3 1).y0
            + (working (0 : ℚ) 0 3 1).gradient * (((2 : ℤ) : ℚ) - (working (0 : ℚ) 0 3 1).x0)⌋ : ℤ))) ∧
      b.brightness = finite
        (((working (0 : ℚ) 0 3 1).y0
            + (working (0 : ℚ) 0 3 1).gradient * (((2 : ℤ) : ℚ) - (working (0 : ℚ) 0 3 1).x0))
          - (⌊(working (0 : ℚ) 0 3 1).y0
            + (working (0 : ℚ) 0 3 1).gradient * (((2 : ℤ) : ℚ) - (working (0 : ℚ) 0 3 1).x0)⌋ : ℤ)) :=
  have hlo : (working (0 : ℚ) 0 3 1).col0 < 2 := by with_unfolding_all decide
  have hhi : 2 < (working (0 : ℚ) 0 3 1).col1 := by with_unfolding_all decide
  ⟨hlo, hhi, (interior_sampling (0 : ℚ) 0 3 1 2 hlo hhi).2⟩

/-! ## Rows of the interior writes -/

/-- C16, evaluated at a failing input.  `wuLine(0, -0.5, 4, -0.5)` is a horizontal
segment half a pixel above row 0.  The endpoint writes, whose rows are computed with
`floor`, go to rows `-1` and `0`.  In each interior column 1, 2, 3 the ordinate is
`y = -0.5`, with `floor(y) = -1`, but both writes go to row 0: the conversion of
`y` and of `y + 1` to `int` truncates toward zero. -/
theorem interior_rows_negative :
    wuLine (finite (0 : ℚ)) (finite (-1 / 2)) (finite 4) (finite (-1 / 2)) =
      [plot 0 (-1) (finite (1 / 4)), plot 0 0 (finite (1 / 4)),
       plot 4 (-1) (finite (1 / 4)), plot 4 0 (finite (1 / 4)),
       plot 1 0 (finite (1 / 2)), plot 1 0 (finite (1 / 2)),
       plot 2 0 (finite (1 / 2)), plot 2 0 (finite (1 / 2)),
       plot 3 0 (finite (1 / 2)), plot 3 0 (finite (1 / 2))] ∧
    (working (0 : ℚ) (-1 / 2) 4 (-1 / 2)).y0
      + (working (0 : ℚ) (-1 / 2) 4 (-1 / 2)).gradient
        * (((1 : ℤ) : ℚ) - (working (0 : ℚ) (-1 / 2) 4 (-1 / 2)).x0) = -1 / 2 ∧
    ⌊(-1 / 2 : ℚ)⌋ = -1 ∧
    truncToInt (-1 / 2 : ℚ) = 0 ∧ truncToInt ((-1 / 2 : ℚ) + 1) = 0 := by
  refine ⟨?_, ?_, ?_, ?_, ?_⟩ <;> with_unfolding_all decide

/-- For a non-negative ordinate the truncation is the floor, and the two rows of an
interior column are `floor(y)` and `floor(y) + 1`. -/
theorem truncToInt_of_nonneg (y : K) (hy : 0 ≤ y) :
    truncToInt y = ⌊y⌋ ∧ truncToInt (y + 1) = ⌊y⌋ + 1 := by
  have h1 : (0 : K) ≤ y + 1 := by linarith
  simp only [truncToInt, hy, h1, if_true, Int.floor_add_one, and_self]

/-! ## Range of the coverages -/

/-- Every coverage written by the interior loop on finite values lies in `[0, 1]`. -/
theorem wuLoop_brightness (steep : Bool) (g : K) (n : ℕ) (x : ℤ) (y : K) (p : Plot K)
    (hp : p ∈ wuLoop steep (finite g) n x (finite y)) :
    ∃ v : K, p.brightness = finite v ∧ 0 ≤ v ∧ v ≤ 1 := by
  induction n generalizing x y with
  | zero => simp [wuLoop] at hp
  | succ n ih =>
    have hf0 := Int.fract_nonneg y
    have hf1 := (Int.fract_lt_one y).le
    have hfr : y - (⌊y⌋ : K) = Int.fract y := rfl
    cases steep <;>
      simp only [wuLoop, Bool.false_eq_true, if_false, if_true, List.cons_append,
        List.nil_append, List.mem_cons, Double.finite_add, rfPart_finite, fPart_finite,
        hfr] at hp <;>
      rcases hp with rfl | rfl | hp
    · exact ⟨_, rfl, by linarith, by linarith⟩
    · exact ⟨_, rfl, hf0, hf1⟩
    · exact ih _ _ hp
    · exact ⟨_, rfl, by linarith, by linarith⟩
    · exact ⟨_, rfl, hf0, hf1⟩
    · exact ih _ _ hp

/-- The product of two numbers of `[0, 1]` lies in `[0, 1]`. -/
theorem unit_mul_unit (a b : K) (ha0 : 0 ≤ a) (ha1 : a ≤ 1) (hb0 : 0 ≤ b) (hb1 : b ≤ 1) :
    0 ≤ a * b ∧ a * b ≤ 1 :=
  ⟨mul_nonneg ha0 hb0, mul_le_one₀ ha1 hb0 hb1⟩

/-- C12. Coverage range: every coverage (brightness) that a call of `wuLine` on four
finite coordinates passes to `plot`, for endpoint pixels and interior pixels alike, is
a finite value of the closed interval `[0, 1]`. -/
theorem coverage_range (x0 y0 x1 y1 : K) (p : Plot K)
    (hp : p ∈ wuLine (finite x0) (finite y0) (finite x1) (finite y1)) :
    ∃ v : K, p.brightness = finite v ∧ 0 ≤ v ∧ v ≤ 1 := by
  rw [wuLine_finite] at hp
  generalize working x0 y0 x1 y1 = w at hp
  have hfr : ∀ t : K, t - (⌊t⌋ : K) = Int.fract t := fun _ => rfl
  have f0 : ∀ t : K, 0 ≤ Int.fract t := Int.fract_nonneg
  have f1 : ∀ t : K, Int.fract t ≤ 1 := fun t => (Int.fract_lt_one t).le
  have r0 : ∀ t : K, 0 ≤ 1 - Int.fract t := fun t => by linarith [f1 t]
  have r1 : ∀ t : K, 1 - Int.fract t ≤ 1 := fun t => by linarith [f0 t]
  cases hst : isSteep x0 y0 x1 y1 <;>
    simp only [hst, Bool.false_eq_true, if_false, if_true, List.cons_append, List.nil_append,
      List.mem_cons, Working.col0, Working.col1, hfr] at hp <;>
    rcases hp with rfl | rfl | rfl | rfl | hp
  · exact ⟨_, rfl, unit_mul_unit _ _ (r0 _) (r1 _) (r0 _) (r1 _)⟩
  · exact ⟨_, rfl, unit_mul_unit _ _ (f0 _) (f1 _) (r0 _) (r1 _)⟩
  · exact ⟨_, rfl, unit_mul_unit _ _ (r0 _) (r1 _) (f0 _) (f1 _)⟩
  · exact ⟨_, rfl, unit_mul_unit _ _ (f0 _) (f1 _) (f0 _) (f1 _)⟩
  · exact wuLoop_brightness _ _ _ _ _ p hp
  · exact ⟨_, rfl, unit_mul_unit _ _ (r0 _) (r1 _) (r0 _) (r1 _)⟩
  · exact ⟨_, rfl, unit_mul_unit _ _ (f0 _) (f1 _) (r0 _) (r1 _)⟩
  · exact ⟨_, rfl, unit_mul_unit _ _ (r0 _) (r1 _) (f0 _) (f1 _)⟩
  · exact ⟨_, rfl, unit_mul_unit _ _ (f0 _) (f1 _) (f0 _) (f1 _)⟩
  · exact wuLoop_brightness _ _ _ _ _ p hp

/-- A witness of C12 on `drawLine(0, 0, 3, 1)`: the write `(1, 0)` with coverage `2/3`. -/
theorem coverage_range_witness :
    (plot 1 0 (finite (2 / 3)) : Plot ℚ)
      ∈ wuLine (finite (0 : ℚ)) (finite 0) (finite 3) (finite 1) ∧
    ∃ v : ℚ, (plot 1 0 (finite (2 / 3)) : Plot ℚ).brightness = finite v ∧ 0 ≤ v ∧ v ≤ 1 :=
  have hp : (plot 1 0 (finite (2 / 3)) : Plot ℚ)
      ∈ wuLine (finite (0 : ℚ)) (finite 0) (finite 3) (finite 1) := by
    rw [wuLine_example]
    simp
  ⟨hp, coverage_range (0 : ℚ) 0 3 1 _ hp⟩

/-! ## Symmetries of the rasteriser -/

/-- Steepness does not depend on the order of the endpoints. -/
theorem isSteep_comm (x0 y0 x1 y1 : K) : isSteep x1 y1 x0 y0 = isSteep x0 y0 x1 y1 := by
  simp only [isSteep, abs_sub_comm y0 y1, abs_sub_comm x0 x1]

/-- The working-space segment does not depend on the order of the endpoints. -/
theorem working_comm (x0 y0 x1 y1 : K) : working x1 y1 x0 y0 = working x0 y0 x1 y1 := by
  by_cases hs : |y1 - y0| > |x1 - x0|
  · have hs2 : |y0 - y1| > |x1 - x0| := by rw [abs_sub_comm]; exact hs
    have hne : y0 ≠ y1 := by
      intro h
      rw [h, sub_self, abs_zero] at hs
      exact absurd hs (not_lt.mpr (abs_nonneg _))
    simp only [working, isSteep, abs_sub_comm y0 y1, abs_sub_comm x0 x1, hs, decide_True, if_true]
    rcases lt_or_gt_of_ne hne with h | h
    · have h2 : ¬ (y0 > y1) := not_lt.mpr h.le
      simp only [gt_iff_lt, h, h2, if_true, if_false]
    · have h2 : ¬ (y1 > y0) := not_lt.mpr (le_of_lt h)
      simp only [gt_iff_lt] at h h2
      simp only [gt_iff_lt, h, h2, if_true, if_false]
  · simp only [working, isSteep, abs_sub_comm y0 y1, abs_sub_comm x0 x1, hs, decide_False,
      Bool.false_eq_true, if_false]
    rcases lt_trichotomy x0 x1 with h | h | h
    · have h2 : ¬ (x0 > x1) := not_lt.mpr h.le
      simp only [gt_iff_lt, h, h2, if_true, if_false]
    · subst h
      have hy : y1 = y0 := by
        rw [sub_self, abs_zero] at hs
        have := le_antisymm (not_lt.mp hs) (abs_nonneg _)
        exact sub_eq_zero.mp (abs_eq_zero.mp this)
      subst hy
      simp only [gt_iff_lt, lt_self_iff_false, if_false]
    · have h2 : ¬ (x1 > x0) := not_lt.mpr (le_of_lt h)
      simp only [gt_iff_lt] at h h2
      simp only [gt_iff_lt, h, h2, if_true, if_false]

/-- C18. Endpoint-order symmetry: for all finite `x0, y0, x1, y1`, the calls
`wuLine(x0, y0, x1, y1)` and `wuLine(x1, y1, x0, y0)` make the identical sequence of
writes (pixel `x`, pixel `y`, coverage). -/
theorem endpoint_order_symmetry (x0 y0 x1 y1 : K) :
    wuLine (finite x0) (finite y0) (finite x1) (finite y1)
      = wuLine (finite x1) (finite y1) (finite x0) (finite y0) := by
  rw [wuLine_finite, wuLine_finite, isSteep_comm x0 y0 x1 y1, working_comm x0 y0 x1 y1]

/-- Exchanging the pixel coordinates of the writes of the interior loop amounts to
running the loop of the other orientation. -/
theorem wuLoop_swap (steep : Bool) (g : Double K) (n : ℕ) (x : ℤ) (y : Double K) :
    (wuLoop steep g n x y).map Plot.swap = wuLoop (!steep) g n x y := by
  induction n generalizing x y with
  | zero => rfl
  | succ n ih =>
    cases steep <;>
      simp [wuLoop, ih, Plot.swap, plot]

/-- With `|y1 - y0| ≠ |x1 - x0|`, transposing the segment flips its steepness. -/
theorem isSteep_transpose (x0 y0 x1 y1 : K) (h : |y1 - y0| ≠ |x1 - x0|) :
    isSteep y0 x0 y1 x1 = !isSteep x0 y0 x1 y1 := by
  simp only [isSteep]
  rcases lt_or_gt_of_ne h with h1 | h1
  · have h2 : ¬ (|y1 - y0| > |x1 - x0|) := not_lt.mpr h1.le
    simp only [gt_iff_lt] at h2
    simp [h1, h2]
  · have h2 : ¬ (|x1 - x0| > |y1 - y0|) := not_lt.mpr (le_of_lt h1)
    simp only [gt_iff_lt] at h1 h2
    simp [h1, h2]

/-- With `|y1 - y0| ≠ |x1 - x0|`, a segment and its transpose have the same
working-space segment. -/
theorem working_transpose (x0 y0 x1 y1 : K) (h : |y1 - y0| ≠ |x1 - x0|) :
    working y0 x0 y1 x1 = working x0 y0 x1 y1 := by
  have hs := isSteep_transpose x0 y0 x1 y1 h
  cases hst : isSteep x0 y0 x1 y1 <;>
    simp only [hst, Bool.not_false, Bool.not_true] at hs <;>
    simp only [working, hs, hst, Bool.false_eq_true, if_false, if_true]

/-- C19. Transposition symmetry: for all finite `x0, y0, x1, y1` with
`|y1 - y0| ≠ |x1 - x0|`, the call `wuLine(y0, x0, y1, x1)` makes exactly the writes of
`wuLine(x0, y0, x1, y1)`, in the same order and with the same coverages, with the pixel
coordinates `x` and `y` of each write exchanged. -/
theorem transposition_symmetry (x0 y0 x1 y1 : K) (h : |y1 - y0| ≠ |x1 - x0|) :
    wuLine (finite y0) (finite x0) (finite y1) (finite x1)
      = (wuLine (finite x0) (finite y0) (finite x1) (finite y1)).map Plot.swap := by
  rw [wuLine_finite, wuLine_finite, isSteep_transpose x0 y0 x1 y1 h,
    working_transpose x0 y0 x1 y1 h]
  cases hst : isSteep x0 y0 x1 y1 <;>
    simp only [Bool.not_false, Bool.not_true, Bool.false_eq_true, if_false, if_true,
      List.map_append, List.map_cons, List.map_nil, wuLoop_swap, Plot.swap, plot]

/-- A witness of C19 on `drawLine(0, 0, 3, 1)` and its transpose `drawLine(0, 0, 1, 3)`. -/
theorem transposition_symmetry_witness :
    |(1 : ℚ) - 0| ≠ |(3 : ℚ) - 0| ∧
    wuLine (finite (0 : ℚ)) (finite 0) (finite 1) (finite 3)
      = (wuLine (finite (0 : ℚ)) (finite 0) (finite 3) (finite 1)).map Plot.swap :=
  have h : |(1 : ℚ) - 0| ≠ |(3 : ℚ) - 0| := by norm_num
  ⟨h, transposition_symmetry (0 : ℚ) 0 3 1 h⟩

end RasteriserLemmas

/-! ## The degenerate axis -/

section DegenerateAxis

theorem Double.nan_add (x : Double ℝ) : (Double.nan + x : Double ℝ) = Double.nan := by
  cases x <;> rfl

theorem Double.add_nan (x : Double ℝ) : (x + Double.nan : Double ℝ) = Double.nan := by
  cases x <;> rfl

theorem Double.nan_sub (x : Double ℝ) : (Double.nan - x : Double ℝ) = Double.nan := by
  cases x <;> rfl

theorem Double.sub_nan (x : Double ℝ) : (x - Double.nan : Double ℝ) = Double.nan := by
  cases x <;> rfl

theorem Double.nan_mul (x : Double ℝ) : (Double.nan * x : Double ℝ) = Double.nan := by
  cases x <;> rfl

theorem Double.mul_nan (x : Double ℝ) : (x * Double.nan : Double ℝ) = Double.nan := by
  cases x <;> rfl

theorem Double.neg_finite (a : ℝ) : (-(Double.finite a) : Double ℝ) = Double.finite (-a) := rfl

theorem Double.cos_finite (t : ℝ) : Double.cos (Double.finite t) = Double.finite (Real.cos t) :=
  rfl

theorem Double.sin_finite (t : ℝ) : Double.sin (Double.finite t) = Double.finite (Real.sin t) :=
  rfl

/-- Function `rotate` on doubles returns NaN in every coordinate when the direction is
NaN in every coordinate. -/
theorem Cube3D.rotateD_nan (p q : Vector3 (Double ℝ)) (theta : Double ℝ) :
    Cube3D.rotateD p q ⟨Double.nan, Double.nan, Double.nan⟩ theta
      = ⟨Double.nan, Double.nan, Double.nan⟩ := by
  simp only [Cube3D.rotateD, Double.nan_add, Double.add_nan, Double.nan_sub, Double.sub_nan,
    Double.nan_mul, Double.mul_nan]

/-- The pivots of a finite cube, computed on doubles, are the pivots computed on reals. -/
theorem Cube3D.pivotD_toDouble (c : Cube3D ℝ) (axis : Axis) :
    c.toDouble.pivot1D axis = (c.pivot1 axis).toDouble ∧
    c.toDouble.pivot2D axis = (c.pivot2 axis).toDouble := by
  have h4 : (4 : ℝ) ≠ 0 := by norm_num
  cases axis <;>
    simp only [Cube3D.pivot1D, Cube3D.pivot2D, Cube3D.pivot1, Cube3D.pivot2, Cube3D.toDouble,
      Vector3.toDouble, Vector3.ext_iff3, Vector3.div_x, Vector3.div_y, Vector3.div_z,
      Vector3.add_x, Vector3.add_y, Vector3.add_z, Double.finite_add,
      Double.finite_div _ _ h4, and_self]

/-- The magnitude of a finite vector, computed on doubles. -/
theorem Vector3.getMagnitudeD_toDouble (v : Vector3 ℝ) :
    v.toDouble.getMagnitudeD = Double.finite v.getMagnitude := rfl

/-- On a finite cube whose two face centroids are distinct, and for a finite angle,
`rotateAbout` on doubles computes the finite values of `rotateAbout` on reals. -/
theorem Cube3D.rotateAboutD_toDouble (c : Cube3D ℝ) (axis : Axis) (theta : ℝ)
    (h : c.pivot1 axis ≠ c.pivot2 axis) :
    c.toDouble.rotateAboutD axis (Double.finite theta) = (c.rotateAbout axis theta).toDouble := by
  obtain ⟨h1, h2⟩ := Cube3D.pivotD_toDouble c axis
  have hm : (c.pivot2 axis - c.pivot1 axis).getMagnitude ≠ 0 := by
    rw [Vector3.getMagnitude_eq_norm]
    exact (Vector3.norm_pos_of_ne h).ne.symm
  have h180 : (180 : ℝ) ≠ 0 := by norm_num
  have hd : ((c.pivot2 axis).toDouble - (c.pivot1 axis).toDouble).getUnitVectorD
      = (c.pivot2 axis - c.pivot1 axis).getUnitVector.toDouble := by
    have hsub : (c.pivot2 axis).toDouble - (c.pivot1 axis).toDouble
        = (c.pivot2 axis - c.pivot1 axis).toDouble := by
      simp only [Vector3.toDouble, Vector3.ext_iff3, Vector3.sub_x, Vector3.sub_y, Vector3.sub_z,
        Double.finite_sub, and_self]
    rw [hsub]
    unfold Vector3.getUnitVectorD Vector3.getUnitVector
    rw [Vector3.getMagnitudeD_toDouble]
    simp only [Vector3.toDouble, Vector3.ext_iff3, Vector3.div_x, Vector3.div_y, Vector3.div_z,
      Double.finite_div _ _ hm, and_self]
  apply Cube3D.ext_point
  intro i
  simp only [Cube3D.rotateAboutD, h1, h2, hd]
  simp only [Cube3D.toDouble, Cube3D.rotateAbout_point]
  simp only [Cube3D.rotateD, Cube3D.rotate, Vector3.toDouble, Double.finite_div _ _ h180,
    Double.finite_mul, Double.finite_add, Double.finite_sub, Double.neg_finite,
    Double.cos_finite, Double.sin_finite]

/-- When the two face centroids coincide, `rotateAbout` on doubles divides the zero
vector by its zero magnitude and writes NaN into every coordinate of every vertex. -/
theorem Cube3D.rotateAboutD_degenerate (c : Cube3D ℝ) (axis : Axis) (theta : Double ℝ)
    (h : c.pivot1 axis = c.pivot2 axis) (i : Fin 8) :
    (c.toDouble.rotateAboutD axis theta).point i = ⟨Double.nan, Double.nan, Double.nan⟩ := by
  obtain ⟨h1, h2⟩ := Cube3D.pivotD_toDouble c axis
  have hd : ((c.pivot2 axis).toDouble - (c.pivot1 axis).toDouble).getUnitVectorD
      = ⟨Double.nan, Double.nan, Double.nan⟩ := by
    rw [h]
    simp only [Vector3.getUnitVectorD, Vector3.getMagnitudeD, Vector3.toDouble, Vector3.sub_x,
      Vector3.sub_y, Vector3.sub_z, Double.finite_sub, sub_self, Double.hypot, mul_zero,
      add_zero, Real.sqrt_zero, Vector3.ext_iff3, Vector3.div_x, Vector3.div_y, Vector3.div_z]
    refine ⟨?_, ?_, ?_⟩ <;>
      · show Double.div (Double.finite 0) (Double.finite 0) = Double.nan
        simp [Double.div]
  simp only [Cube3D.rotateAboutD, h1, h2, hd, Cube3D.rotateD_nan]

/-- C13, as stated, fails on the flat cube (the cube of `main` with the back face moved
onto the front face) and `rotateAbout(Z_AXIS, 2.5)`: the two face centroids coincide,
the call returns, and every coordinate of all eight vertices is NaN. -/
theorem degenerate_axis_counterexample :
    flatCube.pivot1 Axis.Z_AXIS = flatCube.pivot2 Axis.Z_AXIS ∧
    ∀ i : Fin 8, (flatCube.toDouble.rotateAboutD Axis.Z_AXIS (Double.finite (5 / 2))).point i
      = ⟨Double.nan, Double.nan, Double.nan⟩ := by
  have h : flatCube.pivot1 Axis.Z_AXIS = flatCube.pivot2 Axis.Z_AXIS := by
    simp only [Cube3D.pivot1, Cube3D.pivot2, flatCube, Cube3D.ofPoints]
  exact ⟨h, fun i => Cube3D.rotateAboutD_degenerate flatCube Axis.Z_AXIS _ h i⟩

/-- C13, amended.  When the two face centroids that define the rotation axis coincide
(`p1 = p2`), `rotateAbout` does not fail: on finite vertices and for every angle it
returns, after normalising the zero vector (`0 / 0` in each coordinate of `d`), eight
vertices whose coordinates are all NaN. -/
theorem degenerate_axis_writes_nan (c : Cube3D ℝ) (axis : Axis) (theta : Double ℝ)
    (h : c.pivot1 axis = c.pivot2 axis) :
    (c.pivot2 axis - c.pivot1 axis).toDouble.getUnitVectorD
      = ⟨Double.nan, Double.nan, Double.nan⟩ ∧
    ∀ i : Fin 8,
      (c.toDouble.rotateAboutD axis theta).point i = ⟨Double.nan, Double.nan, Double.nan⟩ := by
  refine ⟨?_, fun i => Cube3D.rotateAboutD_degenerate c axis theta h i⟩
  rw [h]
  simp only [Vector3.getUnitVectorD, Vector3.getMagnitudeD, Vector3.toDouble, Vector3.sub_x,
    Vector3.sub_y, Vector3.sub_z, sub_self, Double.hypot, mul_zero, add_zero, Real.sqrt_zero,
    Vector3.ext_iff3, Vector3.div_x, Vector3.div_y, Vector3.div_z]
  refine ⟨?_, ?_, ?_⟩ <;>
    · show Double.div (Double.finite 0) (Double.finite 0) = Double.nan
      simp [Double.div]

/-- A witness of the amended C13: the cube whose eight vertices are all at the origin,
`rotateAbout(X_AXIS, 2.5)`. -/
theorem degenerate_axis_writes_nan_witness :
    (Cube3D.ofPoints 0 0 0 0 0 0 0 0 : Cube3D ℝ).pivot1 Axis.X_AXIS
      = (Cube3D.ofPoints 0 0 0 0 0 0 0 0 : Cube3D ℝ).pivot2 Axis.X_AXIS ∧
    ∀ i : Fin 8,
      ((Cube3D.ofPoints 0 0 0 0 0 0 0 0 : Cube3D ℝ).toDouble.rotateAboutD Axis.X_AXIS
        (Double.finite (5 / 2))).point i = ⟨Double.nan, Double.nan, Double.nan⟩ :=
  have h : (Cube3D.ofPoints 0 0 0 0 0 0 0 0 : Cube3D ℝ).pivot1 Axis.X_AXIS
      = (Cube3D.ofPoints 0 0 0 0 0 0 0 0 : Cube3D ℝ).pivot2 Axis.X_AXIS := rfl
  ⟨h, (degenerate_axis_writes_nan _ Axis.X_AXIS (Double.finite (5 / 2)) h).2⟩

end DegenerateAxis

end Cube3DApp
